import Mathlib

/-!
Shallow embedding of the `bloomfilter` Go package (files `bloomfilter.go`,
`bf.go`): a standard Bloom filter, a counting Bloom filter and a scalable
Bloom filter, all sharing one double-hashing probe scheme over a 64-bit
FNV-1 hash.

Modelling conventions:
* Go byte slices are `List Nat` (each entry a byte; the FNV step reduces
  entries mod 256 exactly as `uint8` would).
* `uint32` / `uint64` arithmetic is `Nat` arithmetic with explicit
  `% U32` / `% U64` at every point the Go code converts or can wrap.
* Go `int` fields that only count upwards (`k`, `m`, `n` of `BloomFilter`,
  and the scalable filter's fields) are `Nat`; the counting filter's `n`
  is decremented unconditionally by `remove` and so is `Int`.
* A Go runtime panic (index out of range, integer division by zero in
  `% uint32(m)` when `uint32(m) == 0`) is `none`: every operation that can
  panic returns an `Option`.
* `falsePositiveRate` is a `float64` computation (`math.Exp`, `math.Pow`);
  its only use in control flow is the comparison
  `fpr <= sbf.f` inside `ScalableBloomFilter.Add`.  Floating point is not
  shallow-embeddable, so that comparison is abstracted as a boolean
  oracle parameter `o` applied to the fields `(k, n, m)` of the active
  filter, which are exactly the inputs of `falsePositiveRate`.  Theorems
  about the scalable filter quantify over the oracle.
-/

namespace BloomFilterGo

/-- 2^32, the modulus of Go `uint32` arithmetic. -/
def U32 : Nat := 4294967296

/-- 2^64, the modulus of Go `uint64` arithmetic. -/
def U64 : Nat := 18446744073709551616

/-- FNV-1 64-bit offset basis, the state set by `fnv.New64()` / `Reset()`. -/
def fnvOffset : Nat := 14695981039346656037

/-- FNV-1 64-bit prime. -/
def fnvPrime : Nat := 1099511628211

/-- One byte of `Write` for `fnv.New64()` (FNV-1): multiply by the prime in
`uint64`, then xor in the byte. -/
def fnvStep (st b : Nat) : Nat := ((st * fnvPrime) % U64) ^^^ (b % 256)

/-- `Write` of a whole byte slice, folding `fnvStep` from state `st`. -/
def fnvWrite (st : Nat) (bs : List Nat) : Nat := bs.foldl fnvStep st

/-- The 64-bit FNV-1 hash of a byte slice: `Reset` then `Write` then `Sum64`. -/
def fnv64 (bs : List Nat) : Nat := fnvWrite fnvOffset bs

/-- `getHash`: the 64-bit hash split into its low 32 bits `h1 := uint32(hash64 &
((1 << 32) - 1))` and high 32 bits `h2 := uint32(hash64 >> 32)`. -/
def getHash (bs : List Nat) : Nat × Nat := (fnv64 bs % U32, fnv64 bs / U32 % U32)

/-- The stateful view of the hash object used for the determinism claim: the
`hash.Hash64` owned by a filter is a `uint64` accumulator; `getHash` first
`Reset`s it, discarding the incoming state `st`, then writes the bytes, and
`Sum64` reads the accumulator without changing it.  Returns the accumulator
left behind together with the `(h1, h2)` pair. -/
def getHashSt (_st : Nat) (bs : List Nat) : Nat × (Nat × Nat) :=
  let st1 := fnvOffset
  let st2 := fnvWrite st1 bs
  (st2, (st2 % U32, st2 / U32 % U32))

/-- One probe index: `ind := (h1 + uint32(i)*h2) % uint32(bf.m)` with `m32 =
m % 2^32` already applied by the caller.  Go panics with a division by zero
when `uint32(m) == 0`, hence `none` there. -/
def probeIndex (h1 h2 i m32 : Nat) : Option Nat :=
  if m32 = 0 then none else some ((h1 + (i % U32) * h2) % U32 % m32)

/-- The list of probe indices `i = 0, …, k-1` would produce (total version,
meaningful when `m32 ≠ 0`); used to state which positions an operation
touches. -/
def inds (h1 h2 m32 : Nat) (idxs : List Nat) : List Nat :=
  idxs.map fun i => (h1 + (i % U32) * h2) % U32 % m32

/-- The standard Bloom filter record from `bloomfilter.go` (the `hashfn`
field is the stateless FNV hash, modelled by `getHash`). -/
structure BloomFilter where
  bitmap : List Bool
  k : Nat
  n : Nat
  m : Nat
  deriving DecidableEq, Repr

/-- `NewBloomFilter(numHashFuncs, bfSize)`: all-false bitmap of length
`bfSize`, `n = 0`. -/
def newBloomFilter (k m : Nat) : BloomFilter :=
  { bitmap := List.replicate m false, k := k, n := 0, m := m }

/-- The loop body of `BloomFilter.Add` over the remaining loop counters:
each iteration computes `ind` (panicking if `uint32(m) == 0`) and sets
`bitmap[ind] = true` (panicking if out of range). -/
def addGo (h1 h2 m32 : Nat) : List Nat → List Bool → Option (List Bool)
  | [], bm => some bm
  | i :: rest, bm =>
    match probeIndex h1 h2 i m32 with
    | none => none
    | some ind =>
      if ind < bm.length then addGo h1 h2 m32 rest (bm.set ind true) else none

/-- `BloomFilter.Add`: run the probe loop over `i = 0, …, k-1`, then `n++`. -/
def BloomFilter.add (bf : BloomFilter) (e : List Nat) : Option BloomFilter :=
  match addGo (getHash e).1 (getHash e).2 (bf.m % U32) (List.range bf.k) bf.bitmap with
  | none => none
  | some bm2 => some { bf with bitmap := bm2, n := bf.n + 1 }

/-- The loop body of `BloomFilter.Check`: each iteration computes `ind`
(panicking if `uint32(m) == 0`), then evaluates
`result = result && bf.bitmap[ind]`; since Go `&&` short-circuits, the
bitmap is only indexed (and can only panic) while `result` is still true. -/
def checkGo (h1 h2 m32 : Nat) (bm : List Bool) : List Nat → Bool → Option Bool
  | [], result => some result
  | i :: rest, result =>
    match probeIndex h1 h2 i m32 with
    | none => none
    | some ind =>
      if result then
        match bm.get? ind with
        | none => none
        | some b => checkGo h1 h2 m32 bm rest b
      else checkGo h1 h2 m32 bm rest false

/-- `BloomFilter.Check`: the probe loop starting from `result = true`. -/
def BloomFilter.check (bf : BloomFilter) (x : List Nat) : Option Bool :=
  checkGo (getHash x).1 (getHash x).2 (bf.m % U32) bf.bitmap (List.range bf.k) true

/-- The counting Bloom filter record: 8-bit counters (values kept in
`[0, 255]` by the code's guards), and an `n` that `remove` decrements
unconditionally, hence `Int`. -/
structure CountingBloomFilter where
  counts : List Nat
  k : Nat
  n : Int
  m : Nat
  deriving DecidableEq, Repr

/-- `NewCountingBloomFilter(numHashFuncs, cbfSize)`: all-zero counters. -/
def newCountingBloomFilter (k m : Nat) : CountingBloomFilter :=
  { counts := List.replicate m 0, k := k, n := 0, m := m }

/-- The loop body of `CountingBloomFilter.Add`: read `counts[ind]`
(panicking if out of range) and increment it only when it is below `0xFF`. -/
def cbfAddGo (h1 h2 m32 : Nat) : List Nat → List Nat → Option (List Nat)
  | [], cs => some cs
  | i :: rest, cs =>
    match probeIndex h1 h2 i m32 with
    | none => none
    | some ind =>
      match cs.get? ind with
      | none => none
      | some c => cbfAddGo h1 h2 m32 rest (if c < 255 then cs.set ind (c + 1) else cs)

/-- `CountingBloomFilter.Add`: the counter loop, then `n++`. -/
def CountingBloomFilter.add (cbf : CountingBloomFilter) (e : List Nat) :
    Option CountingBloomFilter :=
  match cbfAddGo (getHash e).1 (getHash e).2 (cbf.m % U32) (List.range cbf.k) cbf.counts with
  | none => none
  | some cs2 => some { cbf with counts := cs2, n := cbf.n + 1 }

/-- The loop body of `CountingBloomFilter.Remove`: read `counts[ind]` and
decrement it only when it is above 0. -/
def cbfRemoveGo (h1 h2 m32 : Nat) : List Nat → List Nat → Option (List Nat)
  | [], cs => some cs
  | i :: rest, cs =>
    match probeIndex h1 h2 i m32 with
    | none => none
    | some ind =>
      match cs.get? ind with
      | none => none
      | some c => cbfRemoveGo h1 h2 m32 rest (if 0 < c then cs.set ind (c - 1) else cs)

/-- `CountingBloomFilter.Remove`: the counter loop, then `n--`
(unconditionally, even when every touched counter was already 0). -/
def CountingBloomFilter.remove (cbf : CountingBloomFilter) (e : List Nat) :
    Option CountingBloomFilter :=
  match cbfRemoveGo (getHash e).1 (getHash e).2 (cbf.m % U32) (List.range cbf.k) cbf.counts with
  | none => none
  | some cs2 => some { cbf with counts := cs2, n := cbf.n - 1 }

/-- The loop body of `CountingBloomFilter.Check`:
`result = result && (counts[ind] > 0)`, with the same short-circuit
indexing discipline as the plain filter's check. -/
def cbfCheckGo (h1 h2 m32 : Nat) (cs : List Nat) : List Nat → Bool → Option Bool
  | [], result => some result
  | i :: rest, result =>
    match probeIndex h1 h2 i m32 with
    | none => none
    | some ind =>
      if result then
        match cs.get? ind with
        | none => none
        | some c => cbfCheckGo h1 h2 m32 cs rest (decide (0 < c))
      else cbfCheckGo h1 h2 m32 cs rest false

/-- `CountingBloomFilter.Check`. -/
def CountingBloomFilter.check (cbf : CountingBloomFilter) (x : List Nat) : Option Bool :=
  cbfCheckGo (getHash x).1 (getHash x).2 (cbf.m % U32) cbf.counts (List.range cbf.k) true

/-- The scalable Bloom filter record.  The `float64` field `f` does not
appear: its only use is the branch `fpr <= sbf.f` in `Add`, abstracted as
the oracle argument of `ScalableBloomFilter.add`. -/
structure ScalableBloomFilter where
  bfArr : List BloomFilter
  k : Nat
  n : Nat
  m : Nat
  p : Nat
  q : Nat
  r : Nat
  s : Nat
  deriving DecidableEq, Repr

/-- `NewScalableBloomFilter(numHashFuncs, firstBFSize, maxBloomFilters,
growthFactor, targetFPR)`: `q = 1`, `s = m`, and one fresh plain filter of
size `m` in the chain. -/
def newScalableBloomFilter (k m p r : Nat) : ScalableBloomFilter :=
  { bfArr := [newBloomFilter k m], k := k, n := 0, m := m, p := p, q := 1, r := r, s := m }

/-- `ScalableBloomFilter.Add`.  `o bf.k bf.n bf.m` stands for the `float64`
comparison `bf.falsePositiveRate() <= sbf.f` on the active filter (the rate
is a pure function of exactly those three fields).  Faithful to the Go
control flow: read `bfArr[q-1]` (panic if out of range); on `fpr <= f` add
there and `n++`; otherwise return unchanged when `p == q`, else grow
`s := s * r`, append a fresh filter, `q++`, and add to `bfArr[q-1]` of the
new state. -/
def ScalableBloomFilter.add (o : Nat → Nat → Nat → Bool) (sbf : ScalableBloomFilter)
    (e : List Nat) : Option ScalableBloomFilter :=
  match sbf.bfArr.get? (sbf.q - 1) with
  | none => none
  | some bf =>
    if o bf.k bf.n bf.m then
      match bf.add e with
      | none => none
      | some bf2 =>
        some { sbf with bfArr := sbf.bfArr.set (sbf.q - 1) bf2, n := sbf.n + 1 }
    else if sbf.p = sbf.q then
      some sbf
    else
      match (sbf.bfArr ++ [newBloomFilter sbf.k (sbf.s * sbf.r)]).get? sbf.q with
      | none => none
      | some tgt =>
        match tgt.add e with
        | none => none
        | some tgt2 =>
          some { sbf with
                 bfArr := (sbf.bfArr ++ [newBloomFilter sbf.k (sbf.s * sbf.r)]).set sbf.q tgt2,
                 q := sbf.q + 1, s := sbf.s * sbf.r, n := sbf.n + 1 }

/-- The loop of `ScalableBloomFilter.Check` over filter indices
`i = 0, …, q-1`: return true on the first sub-filter reporting true
(short-circuit), false after all `q` report false; `bfArr[i]` panics when
`i` is out of range. -/
def sbfCheckGo (arr : List BloomFilter) (e : List Nat) : List Nat → Option Bool
  | [] => some false
  | i :: rest =>
    match arr.get? i with
    | none => none
    | some bf =>
      match bf.check e with
      | none => none
      | some true => some true
      | some false => sbfCheckGo arr e rest

/-- `ScalableBloomFilter.Check`. -/
def ScalableBloomFilter.check (sbf : ScalableBloomFilter) (e : List Nat) : Option Bool :=
  sbfCheckGo sbf.bfArr e (List.range sbf.q)

/-- The probe positions of element `e` on a plain filter, as the uint32
double-hashing formula from the code; used to state which positions the
operations touch. -/
def BloomFilter.probes (bf : BloomFilter) (e : List Nat) : List Nat :=
  inds (getHash e).1 (getHash e).2 (bf.m % U32) (List.range bf.k)

/-- The probe positions of element `e` on a counting filter. -/
def CountingBloomFilter.probes (cbf : CountingBloomFilter) (e : List Nat) : List Nat :=
  inds (getHash e).1 (getHash e).2 (cbf.m % U32) (List.range cbf.k)

/-- Modelled from the spec's words (§4.1): `index(i) = (h1 + i * h2) mod m`,
read as arithmetic on unbounded integers; compared against the uint32
computation the code performs. -/
def specIndex (h1 h2 i m : Nat) : Nat := (h1 + i * h2) % m

/-- Reachable scalable-filter states: the constructed state for the given
parameters, closed under successful `add` steps (with the branch oracle `o`
fixed, as the target rate `f` is fixed at construction). -/
inductive SBFReachable (o : Nat → Nat → Nat → Bool) (k m p r : Nat) :
    ScalableBloomFilter → Prop
  | init : SBFReachable o k m p r (newScalableBloomFilter k m p r)
  | step {sbf sbf' : ScalableBloomFilter} {e : List Nat} :
      SBFReachable o k m p r sbf → sbf.add o e = some sbf' →
      SBFReachable o k m p r sbf'

/-- Well-formedness of a plain filter needed for its operations to return
(no panic): the bitmap has the declared length, and either `k = 0` (the
probe loops run zero iterations) or `uint32(m) ≠ 0`. -/
def bfOK (bf : BloomFilter) : Prop :=
  bf.bitmap.length = bf.m ∧ (bf.k = 0 ∨ bf.m % U32 ≠ 0)

/-- Well-formedness of a scalable filter state: the chain length matches
`q`, it is nonempty, and every sub-filter is well-formed. -/
def sbfOK (sbf : ScalableBloomFilter) : Prop :=
  sbf.bfArr.length = sbf.q ∧ 0 < sbf.q ∧ ∀ bf ∈ sbf.bfArr, bfOK bf

instance bfOKDecidable : DecidablePred bfOK := fun bf =>
  decidable_of_iff (bf.bitmap.length = bf.m ∧ (bf.k = 0 ∨ bf.m % U32 ≠ 0)) Iff.rfl

instance sbfOKDecidable (sbf : ScalableBloomFilter) : Decidable (sbfOK sbf) :=
  decidable_of_iff (sbf.bfArr.length = sbf.q ∧ 0 < sbf.q ∧ ∀ bf ∈ sbf.bfArr, bfOK bf) Iff.rfl

/-- A sequence of adds on a plain filter, stopping at the first panic;
used to state preservation of membership under subsequent adds. -/
def BloomFilter.addSeq (bf : BloomFilter) : List (List Nat) → Option BloomFilter
  | [] => some bf
  | e :: es =>
    match bf.add e with
    | none => none
    | some bf' => bf'.addSeq es

/-- A sequence of adds on a counting filter. -/
def CountingBloomFilter.addSeq (cbf : CountingBloomFilter) :
    List (List Nat) → Option CountingBloomFilter
  | [] => some cbf
  | e :: es =>
    match cbf.add e with
    | none => none
    | some cbf' => cbf'.addSeq es

/-- A sequence of adds on a scalable filter (with the branch oracle fixed). -/
def ScalableBloomFilter.addSeq (o : Nat → Nat → Nat → Bool) (sbf : ScalableBloomFilter) :
    List (List Nat) → Option ScalableBloomFilter
  | [] => some sbf
  | e :: es =>
    match sbf.add o e with
    | none => none
    | some sbf' => sbf'.addSeq o es

/-- The structural invariant of scalable-filter states reachable from
`newScalableBloomFilter k m p r` (for `1 ≤ p`): the scalar fields are the
construction parameters, `1 ≤ q ≤ p`, the chain has exactly `q` filters,
`s = m * r^(q-1)`, and the `j`-th filter of the chain was created with
`k` hash functions and size `m * r^j` (its bitmap length). -/
def sbfInv (k m p r : Nat) (sbf : ScalableBloomFilter) : Prop :=
  sbf.k = k ∧ sbf.m = m ∧ sbf.p = p ∧ sbf.r = r ∧
  1 ≤ sbf.q ∧ sbf.q ≤ p ∧ sbf.bfArr.length = sbf.q ∧
  sbf.s = m * r ^ (sbf.q - 1) ∧
  ∀ j bf, sbf.bfArr.get? j = some bf →
    bf.m = m * r ^ j ∧ bf.k = k ∧ bf.bitmap.length = bf.m

/-- Setting a list of positions of a bitmap to true; the add loop's net
effect on the bitmap. -/
def setAll (bm : List Bool) (l : List Nat) : List Bool :=
  l.foldl (fun b i => b.set i true) bm

/-- The value of an 8-bit counter holding `c` after `t` saturating
increments (each one only applied while the counter is below 255). -/
def addVal (c t : Nat) : Nat := if 255 ≤ c then c else min 255 (c + t)

end BloomFilterGo

namespace BloomFilterGo

lemma inds_nil (h1 h2 m32 : Nat) : inds h1 h2 m32 [] = [] := rfl

lemma inds_cons (h1 h2 m32 i : Nat) (l : List Nat) :
    inds h1 h2 m32 (i :: l) =
      ((h1 + (i % U32) * h2) % U32 % m32) :: inds h1 h2 m32 l := rfl

lemma inds_lt {h1 h2 m32 : Nat} (h0 : m32 ≠ 0) (l : List Nat) :
    ∀ ind ∈ inds h1 h2 m32 l, ind < m32 := by
  intro ind hind
  rcases List.mem_map.mp hind with ⟨i, _, rfl⟩
  exact Nat.mod_lt _ (Nat.pos_of_ne_zero h0)

lemma setAll_nil (bm : List Bool) : setAll bm [] = bm := rfl

lemma setAll_cons (bm : List Bool) (i : Nat) (l : List Nat) :
    setAll bm (i :: l) = setAll (bm.set i true) l := rfl

lemma setAll_length (bm : List Bool) (l : List Nat) :
    (setAll bm l).length = bm.length := by
  induction l generalizing bm with
  | nil => rfl
  | cons i l ih => rw [setAll_cons, ih, List.length_set]

lemma setAll_mono {bm : List Bool} {j : Nat} (l : List Nat) (h : bm.get? j = some true) :
    (setAll bm l).get? j = some true := by
  induction l generalizing bm with
  | nil => exact h
  | cons i l ih =>
    rw [setAll_cons]
    apply ih
    rcases eq_or_ne i j with rfl | hne
    · exact List.get?_set_eq_of_lt _ (List.get?_eq_some.mp h).1
    · rw [List.get?_set_ne _ _ hne]; exact h

lemma setAll_get_mem {bm : List Bool} {l : List Nat} {j : Nat}
    (hl : ∀ i ∈ l, i < bm.length) (hj : j ∈ l) : (setAll bm l).get? j = some true := by
  induction l generalizing bm with
  | nil => cases hj
  | cons i l ih =>
    rw [setAll_cons]
    rcases List.mem_cons.mp hj with rfl | hj'
    · exact setAll_mono l (List.get?_set_eq_of_lt _ (hl j (List.mem_cons_self j l)))
    · exact ih (fun i' hi' => (List.length_set bm i true).symm ▸ hl i' (List.mem_cons_of_mem i hi')) hj'

lemma setAll_get_not_mem {bm : List Bool} {l : List Nat} {j : Nat}
    (hj : j ∉ l) : (setAll bm l).get? j = bm.get? j := by
  induction l generalizing bm with
  | nil => rfl
  | cons i l ih =>
    have hne : i ≠ j := fun h => hj (by rw [h]; exact List.mem_cons_self j l)
    rw [setAll_cons, ih (fun h => hj (List.mem_cons_of_mem i h)),
      List.get?_set_ne _ _ hne]

lemma addGo_sound {h1 h2 m32 : Nat} {idxs : List Nat} {bm bm2 : List Bool}
    (h : addGo h1 h2 m32 idxs bm = some bm2) :
    bm2 = setAll bm (inds h1 h2 m32 idxs) ∧
    (∀ ind ∈ inds h1 h2 m32 idxs, ind < bm.length) ∧
    (idxs ≠ [] → m32 ≠ 0) := by
  induction idxs generalizing bm with
  | nil =>
    refine ⟨?_, by simp [inds_nil], fun hne => absurd rfl hne⟩
    simpa [addGo, setAll_nil] using h.symm
  | cons i rest ih =>
    rw [addGo, probeIndex] at h
    by_cases h0 : m32 = 0
    · simp [h0] at h
    · simp only [if_neg h0] at h
      by_cases hlt : (h1 + i % U32 * h2) % U32 % m32 < bm.length
      · rw [if_pos hlt] at h
        rcases ih h with ⟨heq, hbd, _⟩
        refine ⟨by rw [inds_cons, setAll_cons]; exact heq, ?_, fun _ => h0⟩
        intro ind hind
        rcases List.mem_cons.mp (inds_cons h1 h2 m32 i rest ▸ hind) with rfl | hind'
        · exact hlt
        · exact (List.length_set bm _ true) ▸ hbd ind hind'
      · rw [if_neg hlt] at h; cases h

lemma addGo_total {h1 h2 m32 : Nat} (h0 : m32 ≠ 0) (idxs : List Nat)
    {bm : List Bool} (hle : m32 ≤ bm.length) :
    addGo h1 h2 m32 idxs bm = some (setAll bm (inds h1 h2 m32 idxs)) := by
  induction idxs generalizing bm with
  | nil => rw [addGo, inds_nil, setAll_nil]
  | cons i rest ih =>
    have hlt : (h1 + i % U32 * h2) % U32 % m32 < bm.length :=
      Nat.lt_of_lt_of_le (Nat.mod_lt _ (Nat.pos_of_ne_zero h0)) hle
    simp only [addGo, probeIndex, if_neg h0, if_pos hlt]
    rw [inds_cons, setAll_cons]
    exact ih (le_trans hle (List.length_set bm _ true).symm.le)

lemma checkGo_false {h1 h2 m32 : Nat} {bm : List Bool} (h0 : m32 ≠ 0) (idxs : List Nat) :
    checkGo h1 h2 m32 bm idxs false = some false := by
  induction idxs with
  | nil => rfl
  | cons i rest ih => rw [checkGo, probeIndex, if_neg h0]; exact ih

lemma checkGo_eq {h1 h2 m32 : Nat} {bm : List Bool} (h0 : m32 ≠ 0) (idxs : List Nat)
    (hb : ∀ ind ∈ inds h1 h2 m32 idxs, ind < bm.length) (b : Bool) :
    checkGo h1 h2 m32 bm idxs b =
      some (b && (inds h1 h2 m32 idxs).all fun ind => bm.getD ind false) := by
  induction idxs generalizing b with
  | nil => rw [checkGo, inds_nil]; simp
  | cons i rest ih =>
    have hmem : ((h1 + i % U32 * h2) % U32 % m32) ∈ inds h1 h2 m32 (i :: rest) := by
      rw [inds_cons]; exact List.mem_cons_self _ _
    have hlt := hb _ hmem
    have hget : bm.get? ((h1 + i % U32 * h2) % U32 % m32) =
        some (bm.getD ((h1 + i % U32 * h2) % U32 % m32) false) := by
      cases h' : bm.get? ((h1 + i % U32 * h2) % U32 % m32) with
      | none => exact absurd (List.get?_eq_none.mp h') (Nat.not_le.mpr hlt)
      | some b' => rw [List.getD_eq_get?, h']; rfl
    cases b with
    | false =>
      rw [checkGo_false h0, inds_cons]
      simp
    | true =>
      simp only [checkGo, probeIndex, if_neg h0, if_pos rfl, hget]
      rw [ih (fun ind hind => hb ind (by rw [inds_cons]; exact List.mem_cons_of_mem _ hind))]
      rw [inds_cons, List.all_cons]
      simp [Bool.and_comm]

lemma checkGo_ne_nil_m32 {h1 h2 m32 : Nat} {bm : List Bool} {idxs : List Nat} {b c : Bool}
    (hne : idxs ≠ []) (h : checkGo h1 h2 m32 bm idxs b = some c) : m32 ≠ 0 := by
  cases idxs with
  | nil => exact absurd rfl hne
  | cons i rest =>
    rw [checkGo, probeIndex] at h
    by_cases h0 : m32 = 0
    · rw [if_pos h0] at h; cases h
    · exact h0

lemma checkGo_of_false {h1 h2 m32 : Nat} {bm : List Bool} {idxs : List Nat} {c : Bool}
    (h : checkGo h1 h2 m32 bm idxs false = some c) : c = false := by
  induction idxs with
  | nil => cases h; rfl
  | cons i rest ih =>
    rw [checkGo, probeIndex] at h
    by_cases h0 : m32 = 0
    · rw [if_pos h0] at h; cases h
    · rw [if_neg h0] at h
      simp only [Bool.false_eq_true, if_neg] at h
      exact ih (by simpa using h)

lemma checkGo_true_sound {h1 h2 m32 : Nat} {bm : List Bool} {idxs : List Nat} {b : Bool}
    (h : checkGo h1 h2 m32 bm idxs b = some true) :
    b = true ∧ ∀ ind ∈ inds h1 h2 m32 idxs, bm.get? ind = some true := by
  induction idxs generalizing b with
  | nil =>
    cases h
    exact ⟨rfl, by simp [inds_nil]⟩
  | cons i rest ih =>
    rw [checkGo, probeIndex] at h
    by_cases h0 : m32 = 0
    · rw [if_pos h0] at h; cases h
    · rw [if_neg h0] at h
      cases b with
      | false =>
        simp only [Bool.false_eq_true, if_neg] at h
        have := checkGo_of_false (by simpa using h)
        cases this
      | true =>
        simp only [if_pos trivial] at h
        cases hget : bm.get? ((h1 + i % U32 * h2) % U32 % m32) with
        | none => rw [hget] at h; cases h
        | some b' =>
          rw [hget] at h
          rcases ih h with ⟨hb', hrest⟩
          refine ⟨rfl, ?_⟩
          intro ind hind
          rcases List.mem_cons.mp (inds_cons h1 h2 m32 i rest ▸ hind) with rfl | hind'
          · rw [hget, hb']
          · exact hrest ind hind'

end BloomFilterGo

namespace BloomFilterGo

lemma addVal_zero (c : Nat) : addVal c 0 = c := by
  simp [addVal, Nat.min_def]; omega

lemma addVal_step (c t : Nat) :
    addVal (if c < 255 then c + 1 else c) t = addVal c (t + 1) := by
  simp only [addVal, Nat.min_def]
  split_ifs <;> omega

lemma addVal_le {c t : Nat} (h : c ≤ 255) : addVal c t ≤ 255 := by
  simp only [addVal, Nat.min_def]
  split_ifs <;> omega

lemma addVal_ge (c t : Nat) : c ≤ addVal c t := by
  simp only [addVal, Nat.min_def]
  split_ifs <;> omega

lemma addVal_pos {c t : Nat} (h : 0 < t) : 0 < addVal c t := by
  simp only [addVal, Nat.min_def]
  split_ifs <;> omega

lemma addVal_of_saturated (t : Nat) : addVal 255 t = 255 := by
  simp [addVal]

lemma addVal_no_clamp {c t : Nat} (h : c + t ≤ 255) : addVal c t = c + t := by
  simp only [addVal, Nat.min_def]
  split_ifs <;> omega

lemma cbfAddGo_sound {h1 h2 m32 : Nat} {idxs : List Nat} {cs cs2 : List Nat}
    (h : cbfAddGo h1 h2 m32 idxs cs = some cs2) :
    cs2.length = cs.length ∧
    (∀ ind ∈ inds h1 h2 m32 idxs, ind < cs.length) ∧
    (idxs ≠ [] → m32 ≠ 0) ∧
    (∀ j, cs2.get? j = (cs.get? j).map fun c => addVal c ((inds h1 h2 m32 idxs).count j)) := by
  induction idxs generalizing cs with
  | nil =>
    rw [cbfAddGo] at h
    cases h
    refine ⟨rfl, by simp [inds_nil], fun hne => absurd rfl hne, fun j => ?_⟩
    rw [inds_nil]
    cases cs2.get? j <;> simp [addVal_zero]
  | cons i rest ih =>
    rw [cbfAddGo, probeIndex] at h
    by_cases h0 : m32 = 0
    · rw [if_pos h0] at h; cases h
    · rw [if_neg h0] at h
      simp only [] at h
      cases hget : cs.get? ((h1 + i % U32 * h2) % U32 % m32) with
      | none => rw [hget] at h; cases h
      | some c0 =>
        rw [hget] at h
        have hlt : (h1 + i % U32 * h2) % U32 % m32 < cs.length :=
          (List.get?_eq_some.mp hget).1
        have hlen : (if c0 < 255 then cs.set ((h1 + i % U32 * h2) % U32 % m32) (c0 + 1)
            else cs).length = cs.length := by
          split_ifs <;> simp [List.length_set]
        rcases ih h with ⟨ihlen, ihbd, _, ihpt⟩
        refine ⟨by rw [ihlen, hlen], ?_, fun _ => h0, ?_⟩
        · intro ind hind
          rcases List.mem_cons.mp (inds_cons h1 h2 m32 i rest ▸ hind) with rfl | hind'
          · exact hlt
          · exact hlen ▸ ihbd ind hind'
        · intro j
          rw [inds_cons]
          rcases eq_or_ne ((h1 + i % U32 * h2) % U32 % m32) j with rfl | hne
          · rw [ihpt ((h1 + i % U32 * h2) % U32 % m32), List.count_cons_self]
            have hsget : (if c0 < 255 then
                cs.set ((h1 + i % U32 * h2) % U32 % m32) (c0 + 1)
                else cs).get? ((h1 + i % U32 * h2) % U32 % m32) =
                some (if c0 < 255 then c0 + 1 else c0) := by
              split_ifs with hc
              · exact List.get?_set_eq_of_lt _ hlt
              · exact hget
            rw [hsget, hget]
            simp only [Option.map_some']
            rw [addVal_step]
          · rw [ihpt j]
            have hsget : (if c0 < 255 then
                cs.set ((h1 + i % U32 * h2) % U32 % m32) (c0 + 1) else cs).get? j =
                cs.get? j := by
              split_ifs
              · exact List.get?_set_ne _ _ hne
              · rfl
            rw [hsget, List.count_cons_of_ne (fun hj => hne hj.symm)]

lemma cbfAddGo_total {h1 h2 m32 : Nat} (h0 : m32 ≠ 0) (idxs : List Nat)
    {cs : List Nat} (hle : m32 ≤ cs.length) :
    ∃ cs2, cbfAddGo h1 h2 m32 idxs cs = some cs2 := by
  induction idxs generalizing cs with
  | nil => exact ⟨cs, rfl⟩
  | cons i rest ih =>
    have hlt : (h1 + i % U32 * h2) % U32 % m32 < cs.length :=
      Nat.lt_of_lt_of_le (Nat.mod_lt _ (Nat.pos_of_ne_zero h0)) hle
    cases hget : cs.get? ((h1 + i % U32 * h2) % U32 % m32) with
    | none => exact absurd (List.get?_eq_none.mp hget) (Nat.not_le.mpr hlt)
    | some c0 =>
      have hlen : m32 ≤ (if c0 < 255 then
          cs.set ((h1 + i % U32 * h2) % U32 % m32) (c0 + 1) else cs).length := by
        split_ifs <;> simp [List.length_set, hle]
      rcases ih hlen with ⟨cs2, hcs2⟩
      refine ⟨cs2, ?_⟩
      rw [cbfAddGo, probeIndex, if_neg h0]
      simp only [hget]
      exact hcs2

lemma cbfRemoveGo_sound {h1 h2 m32 : Nat} {idxs : List Nat} {cs cs2 : List Nat}
    (h : cbfRemoveGo h1 h2 m32 idxs cs = some cs2) :
    cs2.length = cs.length ∧
    (∀ ind ∈ inds h1 h2 m32 idxs, ind < cs.length) ∧
    (idxs ≠ [] → m32 ≠ 0) ∧
    (∀ j, cs2.get? j = (cs.get? j).map fun c => c - (inds h1 h2 m32 idxs).count j) := by
  induction idxs generalizing cs with
  | nil =>
    rw [cbfRemoveGo] at h
    cases h
    refine ⟨rfl, by simp [inds_nil], fun hne => absurd rfl hne, fun j => ?_⟩
    rw [inds_nil]
    cases cs2.get? j <;> simp
  | cons i rest ih =>
    rw [cbfRemoveGo, probeIndex] at h
    by_cases h0 : m32 = 0
    · rw [if_pos h0] at h; cases h
    · rw [if_neg h0] at h
      simp only [] at h
      cases hget : cs.get? ((h1 + i % U32 * h2) % U32 % m32) with
      | none => rw [hget] at h; cases h
      | some c0 =>
        rw [hget] at h
        have hlt : (h1 + i % U32 * h2) % U32 % m32 < cs.length :=
          (List.get?_eq_some.mp hget).1
        have hlen : (if 0 < c0 then cs.set ((h1 + i % U32 * h2) % U32 % m32) (c0 - 1)
            else cs).length = cs.length := by
          split_ifs <;> simp [List.length_set]
        rcases ih h with ⟨ihlen, ihbd, _, ihpt⟩
        refine ⟨by rw [ihlen, hlen], ?_, fun _ => h0, ?_⟩
        · intro ind hind
          rcases List.mem_cons.mp (inds_cons h1 h2 m32 i rest ▸ hind) with rfl | hind'
          · exact hlt
          · exact hlen ▸ ihbd ind hind'
        · intro j
          rw [inds_cons]
          rcases eq_or_ne ((h1 + i % U32 * h2) % U32 % m32) j with rfl | hne
          · rw [ihpt ((h1 + i % U32 * h2) % U32 % m32), List.count_cons_self]
            have hsget : (if 0 < c0 then
                cs.set ((h1 + i % U32 * h2) % U32 % m32) (c0 - 1)
                else cs).get? ((h1 + i % U32 * h2) % U32 % m32) =
                some (c0 - 1) := by
              split_ifs with hc
              · exact List.get?_set_eq_of_lt _ hlt
              · rw [hget]; congr 1; omega
            rw [hsget, hget]
            simp only [Option.map_some']
            congr 1
            omega
          · rw [ihpt j]
            have hsget : (if 0 < c0 then
                cs.set ((h1 + i % U32 * h2) % U32 % m32) (c0 - 1) else cs).get? j =
                cs.get? j := by
              split_ifs
              · exact List.get?_set_ne _ _ hne
              · rfl
            rw [hsget, List.count_cons_of_ne (fun hj => hne hj.symm)]

lemma cbfRemoveGo_total {h1 h2 m32 : Nat} (h0 : m32 ≠ 0) (idxs : List Nat)
    {cs : List Nat} (hle : m32 ≤ cs.length) :
    ∃ cs2, cbfRemoveGo h1 h2 m32 idxs cs = some cs2 := by
  induction idxs generalizing cs with
  | nil => exact ⟨cs, rfl⟩
  | cons i rest ih =>
    have hlt : (h1 + i % U32 * h2) % U32 % m32 < cs.length :=
      Nat.lt_of_lt_of_le (Nat.mod_lt _ (Nat.pos_of_ne_zero h0)) hle
    cases hget : cs.get? ((h1 + i % U32 * h2) % U32 % m32) with
    | none => exact absurd (List.get?_eq_none.mp hget) (Nat.not_le.mpr hlt)
    | some c0 =>
      have hlen : m32 ≤ (if 0 < c0 then
          cs.set ((h1 + i % U32 * h2) % U32 % m32) (c0 - 1) else cs).length := by
        split_ifs <;> simp [List.length_set, hle]
      rcases ih hlen with ⟨cs2, hcs2⟩
      refine ⟨cs2, ?_⟩
      rw [cbfRemoveGo, probeIndex, if_neg h0]
      simp only [hget]
      exact hcs2

end BloomFilterGo

namespace BloomFilterGo

lemma cbfCheckGo_false {h1 h2 m32 : Nat} {cs : List Nat} (h0 : m32 ≠ 0) (idxs : List Nat) :
    cbfCheckGo h1 h2 m32 cs idxs false = some false := by
  induction idxs with
  | nil => rfl
  | cons i rest ih => rw [cbfCheckGo, probeIndex, if_neg h0]; exact ih

lemma cbfCheckGo_eq {h1 h2 m32 : Nat} {cs : List Nat} (h0 : m32 ≠ 0) (idxs : List Nat)
    (hb : ∀ ind ∈ inds h1 h2 m32 idxs, ind < cs.length) (b : Bool) :
    cbfCheckGo h1 h2 m32 cs idxs b =
      some (b && (inds h1 h2 m32 idxs).all fun ind => decide (0 < cs.getD ind 0)) := by
  induction idxs generalizing b with
  | nil => rw [cbfCheckGo, inds_nil]; simp
  | cons i rest ih =>
    have hmem : ((h1 + i % U32 * h2) % U32 % m32) ∈ inds h1 h2 m32 (i :: rest) := by
      rw [inds_cons]; exact List.mem_cons_self _ _
    have hlt := hb _ hmem
    have hget : cs.get? ((h1 + i % U32 * h2) % U32 % m32) =
        some (cs.getD ((h1 + i % U32 * h2) % U32 % m32) 0) := by
      cases h' : cs.get? ((h1 + i % U32 * h2) % U32 % m32) with
      | none => exact absurd (List.get?_eq_none.mp h') (Nat.not_le.mpr hlt)
      | some c' => rw [List.getD_eq_get?, h']; rfl
    cases b with
    | false =>
      rw [cbfCheckGo_false h0, inds_cons]
      simp
    | true =>
      simp only [cbfCheckGo, probeIndex, if_neg h0, if_pos rfl, hget]
      rw [ih (fun ind hind => hb ind (by rw [inds_cons]; exact List.mem_cons_of_mem _ hind))]
      rw [inds_cons, List.all_cons]
      simp [Bool.and_comm]

lemma cbfCheckGo_ne_nil_m32 {h1 h2 m32 : Nat} {cs : List Nat} {idxs : List Nat} {b c : Bool}
    (hne : idxs ≠ []) (h : cbfCheckGo h1 h2 m32 cs idxs b = some c) : m32 ≠ 0 := by
  cases idxs with
  | nil => exact absurd rfl hne
  | cons i rest =>
    rw [cbfCheckGo, probeIndex] at h
    by_cases h0 : m32 = 0
    · rw [if_pos h0] at h; cases h
    · exact h0

lemma cbfCheckGo_of_false {h1 h2 m32 : Nat} {cs : List Nat} {idxs : List Nat} {c : Bool}
    (h : cbfCheckGo h1 h2 m32 cs idxs false = some c) : c = false := by
  induction idxs with
  | nil => cases h; rfl
  | cons i rest ih =>
    rw [cbfCheckGo, probeIndex] at h
    by_cases h0 : m32 = 0
    · rw [if_pos h0] at h; cases h
    · rw [if_neg h0] at h
      simp only [Bool.false_eq_true, if_neg] at h
      exact ih (by simpa using h)

lemma cbfCheckGo_true_sound {h1 h2 m32 : Nat} {cs : List Nat} {idxs : List Nat} {b : Bool}
    (h : cbfCheckGo h1 h2 m32 cs idxs b = some true) :
    b = true ∧ ∀ ind ∈ inds h1 h2 m32 idxs, ∃ c, cs.get? ind = some c ∧ 0 < c := by
  induction idxs generalizing b with
  | nil =>
    cases h
    exact ⟨rfl, by simp [inds_nil]⟩
  | cons i rest ih =>
    rw [cbfCheckGo, probeIndex] at h
    by_cases h0 : m32 = 0
    · rw [if_pos h0] at h; cases h
    · rw [if_neg h0] at h
      cases b with
      | false =>
        simp only [Bool.false_eq_true, if_neg] at h
        have := cbfCheckGo_of_false (by simpa using h)
        cases this
      | true =>
        simp only [if_pos rfl] at h
        cases hget : cs.get? ((h1 + i % U32 * h2) % U32 % m32) with
        | none => rw [hget] at h; cases h
        | some c' =>
          rw [hget] at h
          rcases ih h with ⟨hb', hrest⟩
          refine ⟨rfl, ?_⟩
          intro ind hind
          rcases List.mem_cons.mp (inds_cons h1 h2 m32 i rest ▸ hind) with rfl | hind'
          · exact ⟨c', hget, by simpa using hb'⟩
          · exact hrest ind hind'

lemma bf_add_fields {bf bf' : BloomFilter} {e : List Nat} (h : bf.add e = some bf') :
    bf'.k = bf.k ∧ bf'.m = bf.m ∧ bf'.n = bf.n + 1 ∧
    bf'.bitmap = setAll bf.bitmap (bf.probes e) ∧
    (∀ ind ∈ bf.probes e, ind < bf.bitmap.length) ∧
    (bf.k ≠ 0 → bf.m % U32 ≠ 0) := by
  rw [BloomFilter.add] at h
  cases hgo : addGo (getHash e).1 (getHash e).2 (bf.m % U32) (List.range bf.k) bf.bitmap with
  | none => rw [hgo] at h; cases h
  | some bm2 =>
    rw [hgo] at h
    cases h
    rcases addGo_sound hgo with ⟨heq, hbd, hm⟩
    exact ⟨rfl, rfl, rfl, heq, hbd,
      fun hk => hm (fun hr => hk (List.range_eq_nil.mp hr))⟩

lemma bf_add_length {bf bf' : BloomFilter} {e : List Nat} (h : bf.add e = some bf') :
    bf'.bitmap.length = bf.bitmap.length := by
  rcases bf_add_fields h with ⟨-, -, -, heq, -, -⟩
  rw [heq, setAll_length]

lemma bf_check_k0 {bf : BloomFilter} (hk : bf.k = 0) (e : List Nat) :
    bf.check e = some true := by
  rw [BloomFilter.check, hk]
  rfl

lemma bf_add_check {bf bf' : BloomFilter} {e : List Nat} (h : bf.add e = some bf') :
    bf'.check e = some true := by
  rcases bf_add_fields h with ⟨hk, hm, -, heq, hbd, hm32⟩
  by_cases hk0 : bf.k = 0
  · exact bf_check_k0 (hk.trans hk0) e
  · have h0 : bf.m % U32 ≠ 0 := hm32 hk0
    rw [BloomFilter.check, hk, hm]
    have hbd' : ∀ ind ∈ inds (getHash e).1 (getHash e).2 (bf.m % U32) (List.range bf.k),
        ind < bf'.bitmap.length := by
      rw [heq, setAll_length]; exact hbd
    rw [checkGo_eq h0 _ hbd']
    congr 1
    rw [Bool.true_and, List.all_eq_true]
    intro ind hind
    have : bf'.bitmap.get? ind = some true := by
      rw [heq]; exact setAll_get_mem hbd hind
    rw [List.getD_eq_get?, this]
    rfl

lemma bf_check_mono {bf bf2 : BloomFilter} {e e2 : List Nat}
    (hc : bf.check e = some true) (ha : bf.add e2 = some bf2) :
    bf2.check e = some true := by
  rcases bf_add_fields ha with ⟨hk, hm, -, heq, -, -⟩
  by_cases hk0 : bf.k = 0
  · exact bf_check_k0 (hk.trans hk0) e
  · rw [BloomFilter.check] at hc
    have hrne : List.range bf.k ≠ [] := fun hr => hk0 (List.range_eq_nil.mp hr)
    have h0 : bf.m % U32 ≠ 0 := checkGo_ne_nil_m32 hrne hc
    rcases checkGo_true_sound hc with ⟨-, hall⟩
    rw [BloomFilter.check, hk, hm]
    have hbd' : ∀ ind ∈ inds (getHash e).1 (getHash e).2 (bf.m % U32) (List.range bf.k),
        ind < bf2.bitmap.length := by
      intro ind hind
      rw [heq, setAll_length]
      exact (List.get?_eq_some.mp (hall ind hind)).1
    rw [checkGo_eq h0 _ hbd']
    congr 1
    rw [Bool.true_and, List.all_eq_true]
    intro ind hind
    have : bf2.bitmap.get? ind = some true := by
      rw [heq]; exact setAll_mono _ (hall ind hind)
    rw [List.getD_eq_get?, this]
    rfl

lemma bfOK_add {bf : BloomFilter} (hok : bfOK bf) (e : List Nat) :
    ∃ bf', bf.add e = some bf' := by
  rcases hok with ⟨hlen, hk | h0⟩
  · rw [BloomFilter.add, hk]
    exact ⟨_, rfl⟩
  · rw [BloomFilter.add,
      addGo_total h0 _ (hlen ▸ Nat.mod_le bf.m U32)]
    exact ⟨_, rfl⟩

lemma bfOK_check {bf : BloomFilter} (hok : bfOK bf) (e : List Nat) :
    ∃ c, bf.check e = some c := by
  rcases hok with ⟨hlen, hk | h0⟩
  · exact ⟨true, bf_check_k0 hk e⟩
  · have hle : bf.m % U32 ≤ bf.bitmap.length := hlen ▸ Nat.mod_le bf.m U32
    rw [BloomFilter.check, checkGo_eq h0 _
      (fun ind hind => Nat.lt_of_lt_of_le (inds_lt h0 _ ind hind) hle)]
    exact ⟨_, rfl⟩

lemma bf_add_OK {bf bf' : BloomFilter} (hok : bfOK bf) (h : bf.add e = some bf') :
    bfOK bf' := by
  rcases bf_add_fields h with ⟨hk, hm, -, -, -, -⟩
  exact ⟨(bf_add_length h).trans (hok.1.trans hm.symm), by
    rcases hok.2 with hk0 | h0
    · exact Or.inl (hk.trans hk0)
    · exact Or.inr (hm ▸ h0)⟩

lemma newBloomFilter_OK {k m : Nat} (h : m % U32 ≠ 0 ∨ k = 0) :
    bfOK (newBloomFilter k m) := by
  refine ⟨List.length_replicate m false, ?_⟩
  rcases h with h | h
  · exact Or.inr h
  · exact Or.inl h

end BloomFilterGo

namespace BloomFilterGo

lemma cbf_add_fields {cbf cbf' : CountingBloomFilter} {e : List Nat}
    (h : cbf.add e = some cbf') :
    cbf'.k = cbf.k ∧ cbf'.m = cbf.m ∧ cbf'.n = cbf.n + 1 ∧
    cbf'.counts.length = cbf.counts.length ∧
    (∀ j, cbf'.counts.get? j =
      (cbf.counts.get? j).map fun c => addVal c ((cbf.probes e).count j)) ∧
    (∀ ind ∈ cbf.probes e, ind < cbf.counts.length) ∧
    (cbf.k ≠ 0 → cbf.m % U32 ≠ 0) := by
  rw [CountingBloomFilter.add] at h
  cases hgo : cbfAddGo (getHash e).1 (getHash e).2 (cbf.m % U32)
      (List.range cbf.k) cbf.counts with
  | none => rw [hgo] at h; cases h
  | some cs2 =>
    rw [hgo] at h
    cases h
    rcases cbfAddGo_sound hgo with ⟨hlen, hbd, hm, hpt⟩
    exact ⟨rfl, rfl, rfl, hlen, hpt, hbd,
      fun hk => hm (fun hr => hk (List.range_eq_nil.mp hr))⟩

lemma cbf_remove_fields {cbf cbf' : CountingBloomFilter} {e : List Nat}
    (h : cbf.remove e = some cbf') :
    cbf'.k = cbf.k ∧ cbf'.m = cbf.m ∧ cbf'.n = cbf.n - 1 ∧
    cbf'.counts.length = cbf.counts.length ∧
    (∀ j, cbf'.counts.get? j =
      (cbf.counts.get? j).map fun c => c - (cbf.probes e).count j) ∧
    (∀ ind ∈ cbf.probes e, ind < cbf.counts.length) ∧
    (cbf.k ≠ 0 → cbf.m % U32 ≠ 0) := by
  rw [CountingBloomFilter.remove] at h
  cases hgo : cbfRemoveGo (getHash e).1 (getHash e).2 (cbf.m % U32)
      (List.range cbf.k) cbf.counts with
  | none => rw [hgo] at h; cases h
  | some cs2 =>
    rw [hgo] at h
    cases h
    rcases cbfRemoveGo_sound hgo with ⟨hlen, hbd, hm, hpt⟩
    exact ⟨rfl, rfl, rfl, hlen, hpt, hbd,
      fun hk => hm (fun hr => hk (List.range_eq_nil.mp hr))⟩

lemma cbf_check_k0 {cbf : CountingBloomFilter} (hk : cbf.k = 0) (e : List Nat) :
    cbf.check e = some true := by
  rw [CountingBloomFilter.check, hk]
  rfl

lemma cbf_add_check {cbf cbf' : CountingBloomFilter} {e : List Nat}
    (h : cbf.add e = some cbf') : cbf'.check e = some true := by
  rcases cbf_add_fields h with ⟨hk, hm, -, hlen, hpt, hbd, hm32⟩
  by_cases hk0 : cbf.k = 0
  · exact cbf_check_k0 (hk.trans hk0) e
  · have h0 : cbf.m % U32 ≠ 0 := hm32 hk0
    rw [CountingBloomFilter.check, hk, hm]
    have hbd' : ∀ ind ∈ inds (getHash e).1 (getHash e).2 (cbf.m % U32) (List.range cbf.k),
        ind < cbf'.counts.length := by
      rw [hlen]; exact hbd
    rw [cbfCheckGo_eq h0 _ hbd']
    congr 1
    rw [Bool.true_and, List.all_eq_true]
    intro ind hind
    have hindp : ind ∈ cbf.probes e := hind
    cases hget : cbf.counts.get? ind with
    | none => exact absurd (List.get?_eq_none.mp hget) (Nat.not_le.mpr (hbd ind hindp))
    | some c =>
      have : cbf'.counts.get? ind = some (addVal c ((cbf.probes e).count ind)) := by
        rw [hpt ind, hget]; rfl
      rw [List.getD_eq_get?, this]
      simp only [Option.getD_some, decide_eq_true_eq]
      exact addVal_pos (List.count_pos_iff_mem.mpr hindp)

lemma cbf_check_mono {cbf cbf2 : CountingBloomFilter} {e e2 : List Nat}
    (hc : cbf.check e = some true) (ha : cbf.add e2 = some cbf2) :
    cbf2.check e = some true := by
  rcases cbf_add_fields ha with ⟨hk, hm, -, hlen, hpt, -, -⟩
  by_cases hk0 : cbf.k = 0
  · exact cbf_check_k0 (hk.trans hk0) e
  · rw [CountingBloomFilter.check] at hc
    have hrne : List.range cbf.k ≠ [] := fun hr => hk0 (List.range_eq_nil.mp hr)
    have h0 : cbf.m % U32 ≠ 0 := cbfCheckGo_ne_nil_m32 hrne hc
    rcases cbfCheckGo_true_sound hc with ⟨-, hall⟩
    rw [CountingBloomFilter.check, hk, hm]
    have hbd' : ∀ ind ∈ inds (getHash e).1 (getHash e).2 (cbf.m % U32) (List.range cbf.k),
        ind < cbf2.counts.length := by
      intro ind hind
      rcases hall ind hind with ⟨c, hget, -⟩
      rw [hlen]
      exact (List.get?_eq_some.mp hget).1
    rw [cbfCheckGo_eq h0 _ hbd']
    congr 1
    rw [Bool.true_and, List.all_eq_true]
    intro ind hind
    rcases hall ind hind with ⟨c, hget, hc0⟩
    have : cbf2.counts.get? ind = some (addVal c ((cbf.probes e2).count ind)) := by
      rw [hpt ind, hget]; rfl
    rw [List.getD_eq_get?, this]
    simp only [Option.getD_some, decide_eq_true_eq]
    exact Nat.lt_of_lt_of_le hc0 (addVal_ge c _)

end BloomFilterGo

namespace BloomFilterGo

lemma bf_add_OK_of_len {bf bf' : BloomFilter} {e : List Nat}
    (hlen : bf.bitmap.length = bf.m) (h : bf.add e = some bf') : bfOK bf' := by
  rcases bf_add_fields h with ⟨hk, hm, -, -, -, hm32⟩
  refine ⟨(bf_add_length h).trans (hlen.trans hm.symm), ?_⟩
  by_cases hk0 : bf.k = 0
  · exact Or.inl (hk.trans hk0)
  · exact Or.inr (hm ▸ hm32 hk0)

lemma sbfCheckGo_true_sound {arr : List BloomFilter} {e : List Nat} {idxs : List Nat}
    (h : sbfCheckGo arr e idxs = some true) :
    ∃ i ∈ idxs, ∃ bf, arr.get? i = some bf ∧ bf.check e = some true := by
  induction idxs with
  | nil => cases h
  | cons i rest ih =>
    rw [sbfCheckGo] at h
    cases hget : arr.get? i with
    | none => rw [hget] at h; cases h
    | some bf =>
      simp only [hget] at h
      cases hchk : bf.check e with
      | none => simp only [hchk] at h; cases h
      | some c =>
        simp only [hchk] at h
        cases c with
        | true => exact ⟨i, List.mem_cons_self i rest, bf, hget, hchk⟩
        | false =>
          rcases ih h with ⟨i', hi', bf', hget', hchk'⟩
          exact ⟨i', List.mem_cons_of_mem i hi', bf', hget', hchk'⟩

lemma sbfCheckGo_some_true {arr : List BloomFilter} {e : List Nat} {idxs : List Nat}
    (hdef : ∀ i ∈ idxs, ∃ bf c, arr.get? i = some bf ∧ bf.check e = some c)
    (hex : ∃ i ∈ idxs, ∃ bf, arr.get? i = some bf ∧ bf.check e = some true) :
    sbfCheckGo arr e idxs = some true := by
  induction idxs with
  | nil => rcases hex with ⟨i, hi, -⟩; cases hi
  | cons i rest ih =>
    rcases hdef i (List.mem_cons_self i rest) with ⟨bf, c, hget, hchk⟩
    rw [sbfCheckGo]
    simp only [hget, hchk]
    cases c with
    | true => rfl
    | false =>
      apply ih (fun i' hi' => hdef i' (List.mem_cons_of_mem i hi'))
      rcases hex with ⟨i', hi', bf', hget', hchk'⟩
      rcases List.mem_cons.mp hi' with rfl | hrest
      · rw [hget] at hget'
        cases hget'
        rw [hchk] at hchk'
        cases hchk'
      · exact ⟨i', hrest, bf', hget', hchk'⟩

lemma sbf_add_sound {o : Nat → Nat → Nat → Bool} {sbf sbf' : ScalableBloomFilter}
    {e : List Nat} (h : sbf.add o e = some sbf') :
    ∃ bf, sbf.bfArr.get? (sbf.q - 1) = some bf ∧
    ((o bf.k bf.n bf.m = true ∧ ∃ bf2, bf.add e = some bf2 ∧
        sbf' = { sbf with bfArr := sbf.bfArr.set (sbf.q - 1) bf2, n := sbf.n + 1 }) ∨
     (o bf.k bf.n bf.m = false ∧ sbf.p = sbf.q ∧ sbf' = sbf) ∨
     (o bf.k bf.n bf.m = false ∧ sbf.p ≠ sbf.q ∧
        ∃ tgt tgt2,
          (sbf.bfArr ++ [newBloomFilter sbf.k (sbf.s * sbf.r)]).get? sbf.q = some tgt ∧
          tgt.add e = some tgt2 ∧
          sbf' = { sbf with
                   bfArr := (sbf.bfArr ++ [newBloomFilter sbf.k (sbf.s * sbf.r)]).set sbf.q tgt2,
                   q := sbf.q + 1, s := sbf.s * sbf.r, n := sbf.n + 1 })) := by
  rw [ScalableBloomFilter.add] at h
  cases hget : sbf.bfArr.get? (sbf.q - 1) with
  | none => rw [hget] at h; cases h
  | some bf =>
    simp only [hget] at h
    refine ⟨bf, rfl, ?_⟩
    by_cases ho : o bf.k bf.n bf.m
    · rw [if_pos ho] at h
      cases hadd : bf.add e with
      | none => simp only [hadd] at h; cases h
      | some bf2 =>
        simp only [hadd] at h
        cases h
        exact Or.inl ⟨ho, bf2, rfl, rfl⟩
    · rw [if_neg ho] at h
      by_cases hpq : sbf.p = sbf.q
      · rw [if_pos hpq] at h
        cases h
        exact Or.inr (Or.inl ⟨Bool.of_not_eq_true ho, hpq, rfl⟩)
      · rw [if_neg hpq] at h
        cases hget2 : (sbf.bfArr ++ [newBloomFilter sbf.k (sbf.s * sbf.r)]).get? sbf.q with
        | none => simp only [hget2] at h; cases h
        | some tgt =>
          simp only [hget2] at h
          cases hadd : tgt.add e with
          | none => simp only [hadd] at h; cases h
          | some tgt2 =>
            simp only [hadd] at h
            cases h
            exact Or.inr (Or.inr ⟨Bool.of_not_eq_true ho, hpq, tgt, tgt2, rfl, hadd, rfl⟩)

lemma concat_set_last {α : Type} {arr : List α} {x y : α} :
    (arr ++ [x]).set arr.length y = arr ++ [y] := by
  apply List.ext_get?
  intro n
  rcases lt_trichotomy n arr.length with hlt | rfl | hgt
  · rw [List.get?_set_ne _ _ (Nat.ne_of_lt hlt).symm, List.get?_append hlt,
      List.get?_append hlt]
  · have hlt2 : arr.length < (arr ++ [x]).length := by
      simp only [List.length_append, List.length_singleton]
      exact Nat.lt_succ_self _
    rw [List.get?_set_eq_of_lt y hlt2, List.get?_concat_length]
  · have h1 : (arr ++ [x]).length ≤ n := by
      simp only [List.length_append, List.length_singleton]; omega
    have h2 : (arr ++ [y]).length ≤ n := by
      simp only [List.length_append, List.length_singleton]; omega
    rw [List.get?_set_ne _ _ (Nat.ne_of_gt hgt).symm, List.get?_eq_none.mpr h1,
      List.get?_eq_none.mpr h2]

lemma sbf_add_OK {o : Nat → Nat → Nat → Bool} {sbf sbf' : ScalableBloomFilter}
    {e : List Nat} (hok : sbfOK sbf) (h : sbf.add o e = some sbf') : sbfOK sbf' := by
  rcases hok with ⟨hlen, hq, hall⟩
  rcases sbf_add_sound h with ⟨bf, hget, hcase⟩
  rcases hcase with ⟨-, bf2, hadd, rfl⟩ | ⟨-, -, rfl⟩ | ⟨-, -, tgt, tgt2, hget2, hadd, rfl⟩
  · refine ⟨by simpa [List.length_set] using hlen, hq, ?_⟩
    intro b hb
    rcases List.mem_or_eq_of_mem_set hb with hb' | rfl
    · exact hall b hb'
    · exact bf_add_OK (hall bf (List.get?_mem hget)) hadd
  · exact ⟨hlen, hq, hall⟩
  · have htgt : tgt = newBloomFilter sbf.k (sbf.s * sbf.r) := by
      rw [← hlen, List.get?_concat_length] at hget2
      exact (Option.some_inj.mp hget2).symm
    have harr : (sbf.bfArr ++ [newBloomFilter sbf.k (sbf.s * sbf.r)]).set sbf.q tgt2 =
        sbf.bfArr ++ [tgt2] := by
      rw [← hlen]; exact concat_set_last
    refine ⟨?_, Nat.succ_le_succ (Nat.zero_le _), ?_⟩
    · show ((sbf.bfArr ++ [newBloomFilter sbf.k (sbf.s * sbf.r)]).set sbf.q tgt2).length
        = sbf.q + 1
      rw [harr, List.length_append, List.length_singleton, hlen]
    · intro b hb
      have hb2 : b ∈ (sbf.bfArr ++ [newBloomFilter sbf.k (sbf.s * sbf.r)]).set sbf.q tgt2 := hb
      rw [harr] at hb2
      rcases List.mem_append.mp hb2 with hb' | hb'
      · exact hall b hb'
      · rw [List.mem_singleton.mp hb']
        refine bf_add_OK_of_len ?_ hadd
        rw [htgt]
        exact List.length_replicate _ _

end BloomFilterGo

namespace BloomFilterGo

lemma listGetSome {α : Type} {l : List α} {i : Nat} (h : i < l.length) :
    ∃ a, l.get? i = some a := by
  cases hg : l.get? i with
  | none => exact absurd (List.get?_eq_none.mp hg) (Nat.not_le.mpr h)
  | some a => exact ⟨a, rfl⟩

lemma sbf_add_check {o : Nat → Nat → Nat → Bool} {sbf sbf' : ScalableBloomFilter}
    {e : List Nat} (hok : sbfOK sbf) (h : sbf.add o e = some sbf')
    (hn : sbf'.n = sbf.n + 1) : sbf'.check e = some true := by
  obtain ⟨hlen, hq, hall⟩ := hok
  rcases sbf_add_sound h with ⟨bf, hget, hcase⟩
  rcases hcase with ⟨-, bf2, hadd, rfl⟩ | ⟨-, -, rfl⟩ | ⟨-, -, tgt, tgt2, hget2, hadd, rfl⟩
  · show sbfCheckGo (sbf.bfArr.set (sbf.q - 1) bf2) e (List.range sbf.q) = some true
    have hqlt : sbf.q - 1 < sbf.bfArr.length := by omega
    apply sbfCheckGo_some_true
    · intro i hi
      have hiq : i < sbf.q := List.mem_range.mp hi
      by_cases hieq : sbf.q - 1 = i
      · subst hieq
        refine ⟨bf2, true, List.get?_set_eq_of_lt _ hqlt, bf_add_check hadd⟩
      · rw [List.get?_set_ne _ _ hieq]
        rcases listGetSome (α := BloomFilter) (l := sbf.bfArr) (i := i) (by omega) with ⟨bfi, hgi⟩
        rcases bfOK_check (hall bfi (List.get?_mem hgi)) e with ⟨c, hc⟩
        exact ⟨bfi, c, hgi, hc⟩
    · exact ⟨sbf.q - 1, List.mem_range.mpr (by omega), bf2,
        List.get?_set_eq_of_lt _ hqlt, bf_add_check hadd⟩
  · omega
  · have harr : (sbf.bfArr ++ [newBloomFilter sbf.k (sbf.s * sbf.r)]).set sbf.q tgt2 =
        sbf.bfArr ++ [tgt2] := by
      rw [← hlen]; exact concat_set_last
    show sbfCheckGo ((sbf.bfArr ++ [newBloomFilter sbf.k (sbf.s * sbf.r)]).set sbf.q tgt2)
      e (List.range (sbf.q + 1)) = some true
    rw [harr]
    apply sbfCheckGo_some_true
    · intro i hi
      have hiq : i < sbf.q + 1 := List.mem_range.mp hi
      by_cases hieq : i = sbf.q
      · subst hieq
        refine ⟨tgt2, true, ?_, bf_add_check hadd⟩
        rw [← hlen, List.get?_concat_length]
      · have hilt : i < sbf.bfArr.length := by omega
        rcases listGetSome hilt with ⟨bfi, hgi⟩
        rcases bfOK_check (hall bfi (List.get?_mem hgi)) e with ⟨c, hc⟩
        refine ⟨bfi, c, ?_, hc⟩
        rw [List.get?_append hilt]
        exact hgi
    · refine ⟨sbf.q, List.mem_range.mpr (Nat.lt_succ_self _), tgt2, ?_, bf_add_check hadd⟩
      rw [← hlen, List.get?_concat_length]

lemma sbf_check_mono {o : Nat → Nat → Nat → Bool} {sbf sbf2 : ScalableBloomFilter}
    {e e2 : List Nat} (hok : sbfOK sbf) (hc : sbf.check e = some true)
    (ha : sbf.add o e2 = some sbf2) : sbf2.check e = some true := by
  obtain ⟨hlen, hq, hall⟩ := hok
  rcases sbfCheckGo_true_sound hc with ⟨i0, hi0, bfi0, hget0, hchk0⟩
  have hi0q : i0 < sbf.q := List.mem_range.mp hi0
  rcases sbf_add_sound ha with ⟨bf, hget, hcase⟩
  rcases hcase with ⟨-, bf2, hadd, rfl⟩ | ⟨-, -, rfl⟩ | ⟨-, -, tgt, tgt2, hget2, hadd, rfl⟩
  · show sbfCheckGo (sbf.bfArr.set (sbf.q - 1) bf2) e (List.range sbf.q) = some true
    have hqlt : sbf.q - 1 < sbf.bfArr.length := by omega
    apply sbfCheckGo_some_true
    · intro i hi
      have hiq : i < sbf.q := List.mem_range.mp hi
      by_cases hieq : sbf.q - 1 = i
      · subst hieq
        rcases bfOK_check (bf_add_OK (hall bf (List.get?_mem hget)) hadd) e with ⟨c, hcc⟩
        exact ⟨bf2, c, List.get?_set_eq_of_lt _ hqlt, hcc⟩
      · rcases listGetSome (α := BloomFilter) (l := sbf.bfArr) (i := i) (by omega) with ⟨bfi, hgi⟩
        rcases bfOK_check (hall bfi (List.get?_mem hgi)) e with ⟨c, hcc⟩
        refine ⟨bfi, c, ?_, hcc⟩
        rw [List.get?_set_ne _ _ hieq]
        exact hgi
    · by_cases hieq : sbf.q - 1 = i0
      · subst hieq
        have hbf : bfi0 = bf := by
          rw [hget0] at hget
          exact Option.some_inj.mp hget
        subst hbf
        exact ⟨sbf.q - 1, List.mem_range.mpr (by omega), bf2,
          List.get?_set_eq_of_lt _ hqlt, bf_check_mono hchk0 hadd⟩
      · refine ⟨i0, hi0, bfi0, ?_, hchk0⟩
        rw [List.get?_set_ne _ _ hieq]
        exact hget0
  · exact hc
  · have harr : (sbf.bfArr ++ [newBloomFilter sbf.k (sbf.s * sbf.r)]).set sbf.q tgt2 =
        sbf.bfArr ++ [tgt2] := by
      rw [← hlen]; exact concat_set_last
    have htgt : tgt = newBloomFilter sbf.k (sbf.s * sbf.r) := by
      rw [← hlen, List.get?_concat_length] at hget2
      exact (Option.some_inj.mp hget2).symm
    show sbfCheckGo ((sbf.bfArr ++ [newBloomFilter sbf.k (sbf.s * sbf.r)]).set sbf.q tgt2)
      e (List.range (sbf.q + 1)) = some true
    rw [harr]
    apply sbfCheckGo_some_true
    · intro i hi
      have hiq : i < sbf.q + 1 := List.mem_range.mp hi
      by_cases hieq : i = sbf.q
      · subst hieq
        have htOK : bfOK tgt2 := by
          refine bf_add_OK_of_len ?_ hadd
          rw [htgt]
          exact List.length_replicate _ _
        rcases bfOK_check htOK e with ⟨c, hcc⟩
        refine ⟨tgt2, c, ?_, hcc⟩
        rw [← hlen, List.get?_concat_length]
      · have hilt : i < sbf.bfArr.length := by omega
        rcases listGetSome hilt with ⟨bfi, hgi⟩
        rcases bfOK_check (hall bfi (List.get?_mem hgi)) e with ⟨c, hcc⟩
        refine ⟨bfi, c, ?_, hcc⟩
        rw [List.get?_append hilt]
        exact hgi
    · have hi0lt : i0 < sbf.bfArr.length := by omega
      refine ⟨i0, List.mem_range.mpr (by omega), bfi0, ?_, hchk0⟩
      rw [List.get?_append hi0lt]
      exact hget0

lemma bf_addSeq_mono {bf bf2 : BloomFilter} {e : List Nat} {es : List (List Nat)}
    (hc : bf.check e = some true) (hs : bf.addSeq es = some bf2) :
    bf2.check e = some true := by
  induction es generalizing bf with
  | nil =>
    rw [BloomFilter.addSeq] at hs
    cases hs
    exact hc
  | cons e2 es ih =>
    rw [BloomFilter.addSeq] at hs
    cases hadd : bf.add e2 with
    | none => simp only [hadd] at hs; cases hs
    | some bf' =>
      simp only [hadd] at hs
      exact ih (bf_check_mono hc hadd) hs

lemma cbf_addSeq_mono {cbf cbf2 : CountingBloomFilter} {e : List Nat} {es : List (List Nat)}
    (hc : cbf.check e = some true) (hs : cbf.addSeq es = some cbf2) :
    cbf2.check e = some true := by
  induction es generalizing cbf with
  | nil =>
    rw [CountingBloomFilter.addSeq] at hs
    cases hs
    exact hc
  | cons e2 es ih =>
    rw [CountingBloomFilter.addSeq] at hs
    cases hadd : cbf.add e2 with
    | none => simp only [hadd] at hs; cases hs
    | some cbf' =>
      simp only [hadd] at hs
      exact ih (cbf_check_mono hc hadd) hs

lemma sbf_addSeq_mono {o : Nat → Nat → Nat → Bool} {sbf sbf2 : ScalableBloomFilter}
    {e : List Nat} {es : List (List Nat)} (hok : sbfOK sbf)
    (hc : sbf.check e = some true) (hs : sbf.addSeq o es = some sbf2) :
    sbf2.check e = some true := by
  induction es generalizing sbf with
  | nil =>
    rw [ScalableBloomFilter.addSeq] at hs
    cases hs
    exact hc
  | cons e2 es ih =>
    rw [ScalableBloomFilter.addSeq] at hs
    cases hadd : sbf.add o e2 with
    | none => simp only [hadd] at hs; cases hs
    | some sbf' =>
      simp only [hadd] at hs
      exact ih (sbf_add_OK ⟨hok.1, hok.2.1, hok.2.2⟩ hadd) (sbf_check_mono hok hc hadd) hs

end BloomFilterGo

namespace BloomFilterGo

lemma sbfInv_init {k m p r : Nat} (hp : 1 ≤ p) :
    sbfInv k m p r (newScalableBloomFilter k m p r) := by
  refine ⟨rfl, rfl, rfl, rfl, le_refl 1, hp, rfl, by show m = m * r ^ (1 - 1); simp, ?_⟩
  intro j bf hbf
  cases j with
  | zero =>
    cases hbf
    exact ⟨by simp [newBloomFilter], rfl, List.length_replicate _ _⟩
  | succ j => cases hbf

lemma sbfInv_step {o : Nat → Nat → Nat → Bool} {k m p r : Nat}
    {sbf sbf' : ScalableBloomFilter} {e : List Nat} (hinv : sbfInv k m p r sbf)
    (h : sbf.add o e = some sbf') : sbfInv k m p r sbf' := by
  obtain ⟨hk, hm, hp, hr, hq1, hqp, hlen, hs, hj⟩ := hinv
  rcases sbf_add_sound h with ⟨bf, hget, hcase⟩
  rcases hcase with ⟨-, bf2, hadd, rfl⟩ | ⟨-, -, rfl⟩ | ⟨-, hpq, tgt, tgt2, hget2, hadd, rfl⟩
  · refine ⟨hk, hm, hp, hr, hq1, hqp, by simpa [List.length_set] using hlen, hs, ?_⟩
    intro j b hb
    by_cases hje : sbf.q - 1 = j
    · subst hje
      have hqlt : sbf.q - 1 < sbf.bfArr.length := by omega
      rw [List.get?_set_eq_of_lt _ hqlt] at hb
      cases hb
      rcases hj _ _ hget with ⟨hbm, hbk, hblen⟩
      rcases bf_add_fields hadd with ⟨hk2, hm2, -, -, -, -⟩
      exact ⟨hm2.trans hbm, hk2.trans hbk,
        (bf_add_length hadd).trans (hblen.trans hm2.symm)⟩
    · rw [List.get?_set_ne _ _ hje] at hb
      exact hj j b hb
  · exact ⟨hk, hm, hp, hr, hq1, hqp, hlen, hs, hj⟩
  · have htgt : tgt = newBloomFilter sbf.k (sbf.s * sbf.r) := by
      rw [← hlen, List.get?_concat_length] at hget2
      exact (Option.some_inj.mp hget2).symm
    have harr : (sbf.bfArr ++ [newBloomFilter sbf.k (sbf.s * sbf.r)]).set sbf.q tgt2 =
        sbf.bfArr ++ [tgt2] := by
      rw [← hlen]; exact concat_set_last
    have hq' : sbf.q + 1 ≤ p := by
      have : sbf.q ≠ p := fun hqe => hpq (hp.trans hqe.symm)
      omega
    have hq0 : sbf.q - 1 + 1 = sbf.q := by omega
    have hsm : sbf.s * sbf.r = m * r ^ (sbf.q + 1 - 1) := by
      rw [hs, hr, Nat.add_sub_cancel, mul_assoc, ← pow_succ, hq0]
    refine ⟨hk, hm, hp, hr, Nat.succ_le_succ (Nat.zero_le _), hq', ?_, hsm, ?_⟩
    · show ((sbf.bfArr ++ [newBloomFilter sbf.k (sbf.s * sbf.r)]).set sbf.q tgt2).length
        = sbf.q + 1
      rw [harr, List.length_append, List.length_singleton, hlen]
    · intro j b hb
      have hb2 : ((sbf.bfArr ++ [newBloomFilter sbf.k (sbf.s * sbf.r)]).set sbf.q tgt2).get? j
          = some b := hb
      rw [harr] at hb2
      rcases lt_trichotomy j sbf.q with hlt | rfl | hgt
      · rw [List.get?_append (by omega)] at hb2
        exact hj j b hb2
      · rw [← hlen, List.get?_concat_length] at hb2
        cases hb2
        rcases bf_add_fields hadd with ⟨hk2, hm2, -, -, -, -⟩
        have htm : tgt.m = sbf.s * sbf.r := by rw [htgt]; rfl
        have htk : tgt.k = sbf.k := by rw [htgt]; rfl
        have htlen : tgt.bitmap.length = tgt.m := by
          rw [htgt]; exact List.length_replicate _ _
        refine ⟨hm2.trans (htm.trans (by simpa using hsm)), ?_, ?_⟩
        · rw [hk2, htk, hk]
        · rw [bf_add_length hadd, htlen, hm2]
      · have hnone : (sbf.bfArr ++ [tgt2]).get? j = none := by
          rw [List.get?_eq_none]
          rw [List.length_append, List.length_singleton, hlen]
          omega
        rw [hnone] at hb2
        cases hb2

lemma sbfInv_reachable {o : Nat → Nat → Nat → Bool} {k m p r : Nat}
    {sbf : ScalableBloomFilter} (hp : 1 ≤ p)
    (h : SBFReachable o k m p r sbf) : sbfInv k m p r sbf := by
  induction h with
  | init => exact sbfInv_init hp
  | step hre hadd ih => exact sbfInv_step ih hadd

end BloomFilterGo

namespace BloomFilterGo

lemma addVal_strict {c t : Nat} (hc : c < 255) (ht : 1 ≤ t) : c < addVal c t := by
  simp only [addVal, Nat.min_def]
  split_ifs <;> omega

lemma addGo_zero {h1 h2 : Nat} {idxs : List Nat} {bm : List Bool} (hne : idxs ≠ []) :
    addGo h1 h2 0 idxs bm = none := by
  cases idxs with
  | nil => exact absurd rfl hne
  | cons i rest => simp [addGo, probeIndex]

lemma checkGo_zero {h1 h2 : Nat} {idxs : List Nat} {bm : List Bool} {b : Bool}
    (hne : idxs ≠ []) : checkGo h1 h2 0 bm idxs b = none := by
  cases idxs with
  | nil => exact absurd rfl hne
  | cons i rest => simp [checkGo, probeIndex]

lemma cbfAddGo_zero {h1 h2 : Nat} {idxs : List Nat} {cs : List Nat} (hne : idxs ≠ []) :
    cbfAddGo h1 h2 0 idxs cs = none := by
  cases idxs with
  | nil => exact absurd rfl hne
  | cons i rest => simp [cbfAddGo, probeIndex]

lemma cbfRemoveGo_zero {h1 h2 : Nat} {idxs : List Nat} {cs : List Nat} (hne : idxs ≠ []) :
    cbfRemoveGo h1 h2 0 idxs cs = none := by
  cases idxs with
  | nil => exact absurd rfl hne
  | cons i rest => simp [cbfRemoveGo, probeIndex]

lemma cbfCheckGo_zero {h1 h2 : Nat} {idxs : List Nat} {cs : List Nat} {b : Bool}
    (hne : idxs ≠ []) : cbfCheckGo h1 h2 0 cs idxs b = none := by
  cases idxs with
  | nil => exact absurd rfl hne
  | cons i rest => simp [cbfCheckGo, probeIndex]

lemma cbf_add_total {cbf : CountingBloomFilter} (hlen : cbf.counts.length = cbf.m)
    (hm : cbf.k = 0 ∨ cbf.m % U32 ≠ 0) (e : List Nat) : ∃ x, cbf.add e = some x := by
  rcases hm with hk | h0
  · rw [CountingBloomFilter.add, hk]
    exact ⟨_, rfl⟩
  · rcases cbfAddGo_total h0 (List.range cbf.k)
      (by rw [hlen]; exact Nat.mod_le cbf.m U32) with ⟨cs2, h2⟩
    rw [CountingBloomFilter.add, h2]
    exact ⟨_, rfl⟩

lemma cbf_remove_total {cbf : CountingBloomFilter} (hlen : cbf.counts.length = cbf.m)
    (hm : cbf.k = 0 ∨ cbf.m % U32 ≠ 0) (e : List Nat) : ∃ x, cbf.remove e = some x := by
  rcases hm with hk | h0
  · rw [CountingBloomFilter.remove, hk]
    exact ⟨_, rfl⟩
  · rcases cbfRemoveGo_total h0 (List.range cbf.k)
      (by rw [hlen]; exact Nat.mod_le cbf.m U32) with ⟨cs2, h2⟩
    rw [CountingBloomFilter.remove, h2]
    exact ⟨_, rfl⟩

lemma cbf_check_total {cbf : CountingBloomFilter} (hlen : cbf.counts.length = cbf.m)
    (hm : cbf.k = 0 ∨ cbf.m % U32 ≠ 0) (e : List Nat) : ∃ c, cbf.check e = some c := by
  rcases hm with hk | h0
  · exact ⟨true, cbf_check_k0 hk e⟩
  · have hle : cbf.m % U32 ≤ cbf.counts.length := hlen ▸ Nat.mod_le cbf.m U32
    rw [CountingBloomFilter.check, cbfCheckGo_eq h0 _
      (fun ind hind => Nat.lt_of_lt_of_le (inds_lt h0 _ ind hind) hle)]
    exact ⟨_, rfl⟩

end BloomFilterGo

namespace BloomFilterGo

/-- Claim C2: `ScalableBloomFilter.Add` routing.  If the active (last used)
filter `bf = bfArr[q-1]` has `falsePositiveRate() <= f` (the oracle `o` on
its `(k, n, m)` returns true), the element is added to that filter and the
global `n` is incremented; otherwise, if `q < p`, the size `s` is
multiplied by `r`, a fresh filter of the new size `s` is appended, `q` is
incremented, the element is added to the new filter, and `n` is
incremented.  The `Option.map` formulation also records that a panic
inside the sub-filter add propagates. -/
theorem c2_scalable_add_branches (o : Nat → Nat → Nat → Bool)
    (sbf : ScalableBloomFilter) (e : List Nat) (bf : BloomFilter)
    (hget : sbf.bfArr.get? (sbf.q - 1) = some bf) :
    (o bf.k bf.n bf.m = true →
      sbf.add o e = (bf.add e).map fun bf2 =>
        { sbf with bfArr := sbf.bfArr.set (sbf.q - 1) bf2, n := sbf.n + 1 }) ∧
    (o bf.k bf.n bf.m = false → sbf.q < sbf.p → sbf.bfArr.length = sbf.q →
      sbf.add o e = ((newBloomFilter sbf.k (sbf.s * sbf.r)).add e).map fun nb2 =>
        { sbf with
          bfArr := sbf.bfArr ++ [nb2],
          q := sbf.q + 1, s := sbf.s * sbf.r, n := sbf.n + 1 }) := by
  constructor
  · intro ho
    rw [ScalableBloomFilter.add]
    simp only [hget]
    rw [if_pos ho]
    cases bf.add e <;> rfl
  · intro ho hqp hlen
    rw [ScalableBloomFilter.add]
    simp only [hget]
    rw [if_neg (by rw [ho]; exact Bool.false_ne_true),
      if_neg (by omega : ¬ sbf.p = sbf.q)]
    have hg2 : (sbf.bfArr ++ [newBloomFilter sbf.k (sbf.s * sbf.r)]).get? sbf.q =
        some (newBloomFilter sbf.k (sbf.s * sbf.r)) := by
      rw [← hlen]
      exact List.get?_concat_length _ _
    simp only [hg2]
    have harr : ∀ nb2 : BloomFilter,
        (sbf.bfArr ++ [newBloomFilter sbf.k (sbf.s * sbf.r)]).set sbf.q nb2 =
          sbf.bfArr ++ [nb2] := fun nb2 => by
      rw [← hlen]
      exact concat_set_last
    cases hadd : (newBloomFilter sbf.k (sbf.s * sbf.r)).add e with
    | none => rfl
    | some nb2 =>
      simp only [Option.map_some']
      rw [harr nb2]

/-- Claim C3: when the chain is at capacity (`p == q`) and the active
filter's estimated FPR exceeds the target (oracle false), `Add` returns
with the state completely unchanged and without signalling any error
(`some sbf`, the very same state, rather than a panic `none`). -/
theorem c3_capacity_silent_drop (o : Nat → Nat → Nat → Bool)
    (sbf : ScalableBloomFilter) (e : List Nat) (bf : BloomFilter)
    (hget : sbf.bfArr.get? (sbf.q - 1) = some bf)
    (ho : o bf.k bf.n bf.m = false) (hpq : sbf.p = sbf.q) :
    sbf.add o e = some sbf := by
  rw [ScalableBloomFilter.add]
  simp only [hget]
  rw [if_neg (by rw [ho]; exact Bool.false_ne_true), if_pos hpq]

/-- Claim C9: with `k = 0` hash functions (and any positive size), the
probe loops run zero iterations, so `check` returns true for every
element, even on a completely empty filter, while `add` changes no bitmap
bit or counter and only increments `n` — for both the Bit-Set and the
Counting filter. -/
theorem c9_zero_hash_functions (bf : BloomFilter) (cbf : CountingBloomFilter)
    (e : List Nat) (hbk : bf.k = 0) (hbm : 0 < bf.m)
    (hck : cbf.k = 0) (hcm : 0 < cbf.m) :
    bf.check e = some true ∧ bf.add e = some { bf with n := bf.n + 1 } ∧
    cbf.check e = some true ∧ cbf.add e = some { cbf with n := cbf.n + 1 } := by
  refine ⟨bf_check_k0 hbk e, ?_, cbf_check_k0 hck e, ?_⟩
  · rw [BloomFilter.add, hbk]
    rfl
  · rw [CountingBloomFilter.add, hck]
    rfl

/-- Claim C10: for `0 < m < 2^32` (and bitmap length `m`), every probe
index is strictly below `m`, so every access is in bounds and `add`,
`check` (and `remove` for the counting filter) return without panicking;
with `m = 0` and at least one probe, the `% uint32(m)` divides by zero, so
the operations panic (`none`) — they are total only under `m > 0`. -/
theorem c10_probe_in_bounds (bf : BloomFilter) (cbf : CountingBloomFilter)
    (e : List Nat) :
    (bf.bitmap.length = bf.m → 0 < bf.m → bf.m < U32 →
      (∀ ind ∈ bf.probes e, ind < bf.m) ∧
      (∃ x, bf.add e = some x) ∧ (∃ c, bf.check e = some c)) ∧
    (cbf.counts.length = cbf.m → 0 < cbf.m → cbf.m < U32 →
      (∀ ind ∈ cbf.probes e, ind < cbf.m) ∧
      (∃ x, cbf.add e = some x) ∧ (∃ x, cbf.remove e = some x) ∧
      (∃ c, cbf.check e = some c)) ∧
    (bf.m = 0 → 0 < bf.k → bf.add e = none ∧ bf.check e = none) ∧
    (cbf.m = 0 → 0 < cbf.k →
      cbf.add e = none ∧ cbf.remove e = none ∧ cbf.check e = none) := by
  refine ⟨?_, ?_, ?_, ?_⟩
  · intro hlen hm hmU
    have hmeq : bf.m % U32 = bf.m := Nat.mod_eq_of_lt hmU
    have h0 : bf.m % U32 ≠ 0 := by omega
    exact ⟨fun ind hind => hmeq ▸ inds_lt h0 _ ind hind,
      bfOK_add ⟨hlen, Or.inr h0⟩ e, bfOK_check ⟨hlen, Or.inr h0⟩ e⟩
  · intro hlen hm hmU
    have hmeq : cbf.m % U32 = cbf.m := Nat.mod_eq_of_lt hmU
    have h0 : cbf.m % U32 ≠ 0 := by omega
    exact ⟨fun ind hind => hmeq ▸ inds_lt h0 _ ind hind,
      cbf_add_total hlen (Or.inr h0) e, cbf_remove_total hlen (Or.inr h0) e,
      cbf_check_total hlen (Or.inr h0) e⟩
  · intro hm0 hk
    have hrne : List.range bf.k ≠ [] :=
      fun hr => absurd (List.range_eq_nil.mp hr) (by omega)
    constructor
    · rw [BloomFilter.add, hm0, Nat.zero_mod, addGo_zero hrne]
    · rw [BloomFilter.check, hm0, Nat.zero_mod, checkGo_zero hrne]
  · intro hm0 hk
    have hrne : List.range cbf.k ≠ [] :=
      fun hr => absurd (List.range_eq_nil.mp hr) (by omega)
    refine ⟨?_, ?_, ?_⟩
    · rw [CountingBloomFilter.add, hm0, Nat.zero_mod, cbfAddGo_zero hrne]
    · rw [CountingBloomFilter.remove, hm0, Nat.zero_mod, cbfRemoveGo_zero hrne]
    · rw [CountingBloomFilter.check, hm0, Nat.zero_mod, cbfCheckGo_zero hrne]

end BloomFilterGo

namespace BloomFilterGo

/-- Claim C1, counterexample to the claim as stated.  With one hash
function, bitmap size 2, at most `p = 1` filter and any target rate `f`
with `0 ≤ f < 1 - e^(-1/2)` (for instance `f = 0.2`, realised here by the
oracle `fun _ n _ => n == 0`, since the active filter's rate is `0` when
`n = 0` and `1 - e^(-1/2) ≈ 0.39` when `n = 1`), the state reached by
adding the byte string `[0]` is at capacity (`q = p = 1`) with the
active filter's rate above target, so adding `[1]` is silently dropped:
the state is returned unchanged, and `check [1]` immediately after
`add [1]` returns `false` — a false negative, contradicting the claim for
exactly the capacity case it includes. -/
theorem c1_counterexample :
    (newScalableBloomFilter 1 2 1 1).add (fun _ n _ => n == 0) [0] =
      some { bfArr := [{ bitmap := [false, true], k := 1, n := 1, m := 2 }],
             k := 1, n := 1, m := 2, p := 1, q := 1, r := 1, s := 2 } ∧
    SBFReachable (fun _ n _ => n == 0) 1 2 1 1
      { bfArr := [{ bitmap := [false, true], k := 1, n := 1, m := 2 }],
        k := 1, n := 1, m := 2, p := 1, q := 1, r := 1, s := 2 } ∧
    (fun (_ n _ : Nat) => n == 0) 1 1 2 = false ∧
    ScalableBloomFilter.add (fun _ n _ => n == 0)
      { bfArr := [{ bitmap := [false, true], k := 1, n := 1, m := 2 }],
        k := 1, n := 1, m := 2, p := 1, q := 1, r := 1, s := 2 } [1] =
      some { bfArr := [{ bitmap := [false, true], k := 1, n := 1, m := 2 }],
             k := 1, n := 1, m := 2, p := 1, q := 1, r := 1, s := 2 } ∧
    ScalableBloomFilter.check
      { bfArr := [{ bitmap := [false, true], k := 1, n := 1, m := 2 }],
        k := 1, n := 1, m := 2, p := 1, q := 1, r := 1, s := 2 } [1] = some false := by
  refine ⟨by decide, ?_, by decide, by decide, by decide⟩
  exact @SBFReachable.step (fun _ n _ => n == 0) 1 2 1 1
    (newScalableBloomFilter 1 2 1 1)
    { bfArr := [{ bitmap := [false, true], k := 1, n := 1, m := 2 }],
      k := 1, n := 1, m := 2, p := 1, q := 1, r := 1, s := 2 }
    [0] SBFReachable.init (by decide)

/-- Claim C1 (amended): no false negatives whenever the add actually
inserts the element.  For the Bit-Set and Counting filters this is
unconditional: after a (non-panicking) `add e`, `check e` returns true and
keeps returning true after any further sequence of adds.  For the Scalable
filter it holds for every well-formed state whenever `add` actually
inserts (`n` is incremented) — the amendment forced by the counterexample
is to exclude the at-capacity silent drop, where the element is not
inserted at all. -/
theorem c1_no_false_negatives :
    (∀ (bf bf2 bf3 : BloomFilter) (e : List Nat) (es : List (List Nat)),
      bf.add e = some bf2 → bf2.addSeq es = some bf3 →
      bf2.check e = some true ∧ bf3.check e = some true) ∧
    (∀ (cbf cbf2 cbf3 : CountingBloomFilter) (e : List Nat) (es : List (List Nat)),
      cbf.add e = some cbf2 → cbf2.addSeq es = some cbf3 →
      cbf2.check e = some true ∧ cbf3.check e = some true) ∧
    (∀ (o : Nat → Nat → Nat → Bool) (sbf sbf2 sbf3 : ScalableBloomFilter)
      (e : List Nat) (es : List (List Nat)), sbfOK sbf →
      sbf.add o e = some sbf2 → sbf2.n = sbf.n + 1 → sbf2.addSeq o es = some sbf3 →
      sbf2.check e = some true ∧ sbf3.check e = some true) := by
  refine ⟨?_, ?_, ?_⟩
  · intro bf bf2 bf3 e es ha hs
    have h1 := bf_add_check ha
    exact ⟨h1, bf_addSeq_mono h1 hs⟩
  · intro cbf cbf2 cbf3 e es ha hs
    have h1 := cbf_add_check ha
    exact ⟨h1, cbf_addSeq_mono h1 hs⟩
  · intro o sbf sbf2 sbf3 e es hok ha hn hs
    have h1 := sbf_add_check hok ha hn
    exact ⟨h1, sbf_addSeq_mono (sbf_add_OK hok ha) h1 hs⟩

/-- Witness for C1 (amended), instantiated on the Bit-Set filter built by
`newBloomFilter 1 2` with element `[0]` followed by a subsequent add of
`[1]`. -/
theorem c1_witness :
    (newBloomFilter 1 2).add [0] =
      some { bitmap := [false, true], k := 1, n := 1, m := 2 } ∧
    BloomFilter.addSeq { bitmap := [false, true], k := 1, n := 1, m := 2 } [[1]] =
      some { bitmap := [true, true], k := 1, n := 2, m := 2 } ∧
    BloomFilter.check { bitmap := [false, true], k := 1, n := 1, m := 2 } [0] =
      some true ∧
    BloomFilter.check { bitmap := [true, true], k := 1, n := 2, m := 2 } [0] =
      some true := by
  refine ⟨by decide, by decide, ?_, ?_⟩
  · exact (c1_no_false_negatives.1 (newBloomFilter 1 2)
      { bitmap := [false, true], k := 1, n := 1, m := 2 }
      { bitmap := [true, true], k := 1, n := 2, m := 2 }
      [0] [[1]] (by decide) (by decide)).1
  · exact (c1_no_false_negatives.1 (newBloomFilter 1 2)
      { bitmap := [false, true], k := 1, n := 1, m := 2 }
      { bitmap := [true, true], k := 1, n := 2, m := 2 }
      [0] [[1]] (by decide) (by decide)).2

/-- Claim C8: hash determinism and history-independence.  In the stateful
model of the `fnv.New64()` object, `getHash` resets the accumulator before
writing, so its result — including the accumulator it leaves behind — is
the same for any two incoming hash states, and coincides with the pure
`getHash`; consequently `Add` and `Check` compute their probe positions
from the same pure `(h1, h2)` pair on every call. -/
theorem c8_hash_deterministic :
    (∀ (st1 st2 : Nat) (b : List Nat), getHashSt st1 b = getHashSt st2 b) ∧
    (∀ (st : Nat) (b : List Nat), (getHashSt st b).2 = getHash b) ∧
    (∀ (bf : BloomFilter) (e : List Nat),
      bf.check e = checkGo (getHash e).1 (getHash e).2 (bf.m % U32) bf.bitmap
        (List.range bf.k) true ∧
      bf.add e = (addGo (getHash e).1 (getHash e).2 (bf.m % U32) (List.range bf.k)
        bf.bitmap).map fun bm2 => { bf with bitmap := bm2, n := bf.n + 1 }) := by
  refine ⟨fun st1 st2 b => rfl, fun st b => rfl, fun bf e => ⟨rfl, ?_⟩⟩
  rw [BloomFilter.add]
  cases addGo (getHash e).1 (getHash e).2 (bf.m % U32) (List.range bf.k) bf.bitmap <;> rfl

end BloomFilterGo

namespace BloomFilterGo

/-- Claim C4, counterexample to the claim as stated.  The spec formula
`index(i) = (h1 + i * h2) mod m` read over unbounded integers disagrees
with the code, which evaluates `h1 + uint32(i)*h2` in wrapping 32-bit
arithmetic before reducing `mod uint32(m)`.  For the byte string `[0]`
(`h1 + h2 ≥ 2^32`) on a filter with `k = 2, m = 3`, the code touches
positions `[1, 2]`, while the spec formula predicts position
`(h1 + 1*h2) mod 3 = 0` for probe `i = 1` — and that position is still
false after `add`. -/
theorem c4_counterexample :
    (newBloomFilter 2 3).add [0] =
      some { bitmap := [false, true, true], k := 2, n := 1, m := 3 } ∧
    (newBloomFilter 2 3).probes [0] = [1, 2] ∧
    specIndex (getHash [0]).1 (getHash [0]).2 1 3 = 0 ∧
    [false, true, true].get? (specIndex (getHash [0]).1 (getHash [0]).2 1 3) =
      some false ∧
    (newBloomFilter 2 3).probes [0] ≠
      (List.range 2).map fun i => specIndex (getHash [0]).1 (getHash [0]).2 i 3 := by
  exact ⟨by decide, by decide, by decide, by decide, by decide⟩

/-- Claim C4 (amended): for every filter and element, the `k` positions
touched are `((h1 + uint32(i)*h2) mod 2^32) mod uint32(m)` for
`i = 0, …, k-1` — the spec's double-hashing formula evaluated in 32-bit
unsigned arithmetic — where `(h1, h2)` are the low and high 32 bits of the
single 64-bit FNV-1 hash of the element's bytes.  `add` sets (for the
counting filter: saturating-increments, once per probe hitting the
position) exactly these positions and leaves every other position
unchanged, and `check`'s result is exactly the conjunction over these
positions. -/
theorem c4_probe_positions (bf : BloomFilter) (cbf : CountingBloomFilter)
    (e : List Nat) :
    (bf.probes e = (List.range bf.k).map fun i =>
      ((fnv64 e % U32) + (i % U32) * (fnv64 e / U32 % U32)) % U32 % (bf.m % U32)) ∧
    (∀ bf2, bf.add e = some bf2 →
      ∀ j, (j ∈ bf.probes e → bf2.bitmap.get? j = some true) ∧
           (j ∉ bf.probes e → bf2.bitmap.get? j = bf.bitmap.get? j)) ∧
    (bf.bitmap.length = bf.m → bf.m % U32 ≠ 0 →
      bf.check e = some ((bf.probes e).all fun ind => bf.bitmap.getD ind false)) ∧
    (∀ cbf2, cbf.add e = some cbf2 →
      ∀ j c, cbf.counts.get? j = some c →
        cbf2.counts.get? j = some (addVal c ((cbf.probes e).count j)) ∧
        (j ∉ cbf.probes e → cbf2.counts.get? j = some c)) ∧
    (cbf.counts.length = cbf.m → cbf.m % U32 ≠ 0 →
      cbf.check e = some ((cbf.probes e).all fun ind =>
        decide (0 < cbf.counts.getD ind 0))) := by
  refine ⟨rfl, ?_, ?_, ?_, ?_⟩
  · intro bf2 hadd j
    rcases bf_add_fields hadd with ⟨-, -, -, heq, hbd, -⟩
    constructor
    · intro hj
      rw [heq]
      exact setAll_get_mem hbd hj
    · intro hj
      rw [heq]
      exact setAll_get_not_mem hj
  · intro hlen h0
    have hle : bf.m % U32 ≤ bf.bitmap.length := hlen ▸ Nat.mod_le bf.m U32
    rw [BloomFilter.check, checkGo_eq h0 _
      (fun ind hind => Nat.lt_of_lt_of_le (inds_lt h0 _ ind hind) hle)]
    simp [BloomFilter.probes]
  · intro cbf2 hadd j c hget
    rcases cbf_add_fields hadd with ⟨-, -, -, -, hpt, -, -⟩
    have h1 : cbf2.counts.get? j = some (addVal c ((cbf.probes e).count j)) := by
      rw [hpt j, hget]
      rfl
    refine ⟨h1, fun hj => ?_⟩
    rw [h1, List.count_eq_zero_of_not_mem hj, addVal_zero]
  · intro hlen h0
    have hle : cbf.m % U32 ≤ cbf.counts.length := hlen ▸ Nat.mod_le cbf.m U32
    rw [CountingBloomFilter.check, cbfCheckGo_eq h0 _
      (fun ind hind => Nat.lt_of_lt_of_le (inds_lt h0 _ ind hind) hle)]
    simp [CountingBloomFilter.probes]

/-- Witness for C4 (amended): the check characterisation evaluated on the
empty filters of size 3 with two hash functions and element `[0]`: both
checks return exactly the conjunction over the probed positions, which is
false on the empty filters. -/
theorem c4_witness :
    (newBloomFilter 2 3).check [0] =
      some (((newBloomFilter 2 3).probes [0]).all fun ind =>
        (newBloomFilter 2 3).bitmap.getD ind false) ∧
    (((newBloomFilter 2 3).probes [0]).all fun ind =>
      (newBloomFilter 2 3).bitmap.getD ind false) = false ∧
    (newCountingBloomFilter 2 3).check [0] =
      some (((newCountingBloomFilter 2 3).probes [0]).all fun ind =>
        decide (0 < (newCountingBloomFilter 2 3).counts.getD ind 0)) := by
  refine ⟨?_, by decide, ?_⟩
  · exact (c4_probe_positions (newBloomFilter 2 3) (newCountingBloomFilter 2 3)
      [0]).2.2.1 (by decide) (by decide)
  · exact (c4_probe_positions (newBloomFilter 2 3) (newCountingBloomFilter 2 3)
      [0]).2.2.2.2 (by decide) (by decide)

/-- Claim C5, counterexample to the claim as stated.  The stated
precondition — no counter at the element's probe positions is 255 before
the add — does not rule out hitting the saturation clamp: with `k = 2` and
`m = 1` both probes of `[0]` hit position 0, so on a state whose single
counter is 254 (< 255, satisfying the precondition) the add clamps its
second increment at 255, and the following remove takes the counter to
253, not back to 254. -/
theorem c5_counterexample :
    CountingBloomFilter.probes { counts := [254], k := 2, n := 0, m := 1 } [0] =
      [0, 0] ∧
    (254 : Nat) < 255 ∧
    (CountingBloomFilter.add { counts := [254], k := 2, n := 0, m := 1 } [0]).bind
      (fun x => x.remove [0]) = some { counts := [253], k := 2, n := 0, m := 1 } ∧
    ({ counts := [253], k := 2, n := 0, m := 1 } : CountingBloomFilter) ≠
      { counts := [254], k := 2, n := 0, m := 1 } := by
  exact ⟨by decide, by decide, by decide, by decide⟩

/-- Claim C5 (amended): `add e` immediately followed by `remove e` returns
the counting filter exactly to its previous state (all counters and `n`),
provided the filter is well formed and no saturation clamp is hit — i.e.
each counter's value plus the number of probes of `e` hitting its position
stays at most 255 (the amendment forced by the counterexample strengthens
the claim's per-counter bound `< 255` to this multiplicity-aware bound). -/
theorem c5_add_remove_inverse (cbf : CountingBloomFilter) (e : List Nat)
    (hlen : cbf.counts.length = cbf.m) (hm : cbf.k = 0 ∨ cbf.m % U32 ≠ 0)
    (hnoclamp : ∀ j c, cbf.counts.get? j = some c →
      c + (cbf.probes e).count j ≤ 255) :
    (cbf.add e).bind (fun x => x.remove e) = some cbf := by
  rcases cbf_add_total hlen hm e with ⟨cbf1, h1⟩
  rcases cbf_add_fields h1 with ⟨hk1, hm1, hn1, hlen1, hpt1, -, -⟩
  have hm2 : cbf1.k = 0 ∨ cbf1.m % U32 ≠ 0 := by rw [hk1, hm1]; exact hm
  rcases cbf_remove_total (by rw [hlen1, hm1]; exact hlen) hm2 e with ⟨cbf2, h2⟩
  rcases cbf_remove_fields h2 with ⟨hk2, hm2f, hn2, hlen2, hpt2, -, -⟩
  rw [h1]
  show cbf1.remove e = some cbf
  rw [h2]
  have hpr : cbf1.probes e = cbf.probes e := by
    rw [CountingBloomFilter.probes, CountingBloomFilter.probes, hk1, hm1]
  have hcounts : cbf2.counts = cbf.counts := by
    apply List.ext_get?
    intro j
    rw [hpt2 j, hpt1 j, hpr]
    cases hg : cbf.counts.get? j with
    | none => rfl
    | some c =>
      simp only [Option.map_some']
      rw [addVal_no_clamp (hnoclamp j c hg)]
      congr 1
      omega
  have hn : cbf2.n = cbf.n := by
    rw [hn2, hn1]
    ring
  have hk : cbf2.k = cbf.k := hk2.trans hk1
  have hmm : cbf2.m = cbf.m := hm2f.trans hm1
  congr 1
  cases cbf2
  cases cbf
  simp_all

/-- Witness for C5 (amended): the empty counting filter with `k = 2`,
`m = 4`; no clamp can be hit from all-zero counters. -/
theorem c5_witness :
    ((newCountingBloomFilter 2 4).add [0]).bind (fun x => x.remove [0]) =
      some (newCountingBloomFilter 2 4) := by
  apply c5_add_remove_inverse
  · decide
  · exact Or.inr (by decide)
  · intro j c hc
    have hc0 : c = 0 := List.eq_of_mem_replicate (List.get?_mem hc)
    subst hc0
    have h2 : ((newCountingBloomFilter 2 4).probes [0]).count j ≤ 2 :=
      le_trans (List.count_le_length _ _) (by decide)
    omega

end BloomFilterGo

namespace BloomFilterGo

/-- Claim C6: structural invariants of every reachable scalable-filter
state (constructed with `k > 0`, `m > 0`, `p ≥ 1`, `r ≥ 1` and evolved by
any sequence of adds; checks do not mutate): `1 ≤ q ≤ p`, the chain has
exactly `q` filters, `s = m * r^(q-1)` and equals the size of the most
recently created sub-filter, the `j`-th (oldest-first) sub-filter has size
`m * r^j` with a bitmap of that length, and a successful add never removes
or resizes an existing sub-filter — it only appends and flips bits. -/
theorem c6_scalable_invariants (o : Nat → Nat → Nat → Bool) (k m p r : Nat)
    (sbf : ScalableBloomFilter) (hk : 0 < k) (hm : 0 < m) (hp : 1 ≤ p) (hr : 1 ≤ r)
    (hre : SBFReachable o k m p r sbf) :
    (1 ≤ sbf.q ∧ sbf.q ≤ sbf.p ∧ sbf.p = p) ∧
    sbf.bfArr.length = sbf.q ∧
    sbf.s = m * r ^ (sbf.q - 1) ∧
    (∃ last, sbf.bfArr.get? (sbf.q - 1) = some last ∧ last.m = sbf.s) ∧
    (∀ j bf, sbf.bfArr.get? j = some bf → bf.m = m * r ^ j ∧ bf.bitmap.length = bf.m) ∧
    (∀ e sbf2, sbf.add o e = some sbf2 →
      sbf.bfArr.length ≤ sbf2.bfArr.length ∧
      ∀ j bf, sbf.bfArr.get? j = some bf →
        ∃ bf2, sbf2.bfArr.get? j = some bf2 ∧ bf2.m = bf.m ∧
          bf2.bitmap.length = bf.bitmap.length) := by
  obtain ⟨hks, hms, hps, hrs, hq1, hqp, hlen, hss, hj⟩ := sbfInv_reachable hp hre
  refine ⟨⟨hq1, hps ▸ hqp, hps⟩, hlen, hss, ?_,
    fun j bf hb => ⟨(hj j bf hb).1, (hj j bf hb).2.2⟩, ?_⟩
  · have hqlt : sbf.q - 1 < sbf.bfArr.length := by omega
    rcases listGetSome hqlt with ⟨last, hlast⟩
    refine ⟨last, hlast, ?_⟩
    rw [(hj _ _ hlast).1, hss]
  · intro e sbf2 hadd
    rcases sbf_add_sound hadd with ⟨bf, hget, hcase⟩
    rcases hcase with ⟨-, bfa, hadd2, rfl⟩ | ⟨-, -, rfl⟩ | ⟨-, -, tgt, tgt2, hget2, hadd2, rfl⟩
    · refine ⟨?_, ?_⟩
      · show sbf.bfArr.length ≤ (sbf.bfArr.set (sbf.q - 1) bfa).length
        rw [List.length_set]
      · intro j bfj hbj
        by_cases hje : sbf.q - 1 = j
        · subst hje
          have hbfj : bfj = bf := by
            rw [hget] at hbj
            exact (Option.some_inj.mp hbj).symm
          rcases bf_add_fields hadd2 with ⟨-, hm2, -, -, -, -⟩
          refine ⟨bfa, List.get?_set_eq_of_lt _ (by omega), ?_, ?_⟩
          · rw [hm2, hbfj]
          · rw [bf_add_length hadd2, hbfj]
        · exact ⟨bfj, by rw [List.get?_set_ne _ _ hje]; exact hbj, rfl, rfl⟩
    · exact ⟨le_refl _, fun j bfj hbj => ⟨bfj, hbj, rfl, rfl⟩⟩
    · have harr : (sbf.bfArr ++ [newBloomFilter sbf.k (sbf.s * sbf.r)]).set sbf.q tgt2 =
          sbf.bfArr ++ [tgt2] := by
        rw [← hlen]
        exact concat_set_last
      refine ⟨?_, ?_⟩
      · show sbf.bfArr.length ≤
          ((sbf.bfArr ++ [newBloomFilter sbf.k (sbf.s * sbf.r)]).set sbf.q tgt2).length
        rw [harr, List.length_append]
        omega
      · intro j bfj hbj
        have hjlt : j < sbf.bfArr.length := (List.get?_eq_some.mp hbj).1
        refine ⟨bfj, ?_, rfl, rfl⟩
        show ((sbf.bfArr ++ [newBloomFilter sbf.k (sbf.s * sbf.r)]).set sbf.q tgt2).get? j
          = some bfj
        rw [harr, List.get?_append hjlt]
        exact hbj

/-- Witness for C6: the freshly constructed scalable filter with `k = 2`,
`m = 3`, `p = 2`, `r = 2` (reachable by `SBFReachable.init`). -/
theorem c6_witness :
    (1 ≤ (newScalableBloomFilter 2 3 2 2).q ∧
      (newScalableBloomFilter 2 3 2 2).q ≤ (newScalableBloomFilter 2 3 2 2).p ∧
      (newScalableBloomFilter 2 3 2 2).p = 2) ∧
    (newScalableBloomFilter 2 3 2 2).bfArr.length = (newScalableBloomFilter 2 3 2 2).q ∧
    (newScalableBloomFilter 2 3 2 2).s =
      3 * 2 ^ ((newScalableBloomFilter 2 3 2 2).q - 1) :=
  ⟨(c6_scalable_invariants (fun _ _ _ => true) 2 3 2 2 (newScalableBloomFilter 2 3 2 2)
      (by decide) (by decide) (by decide) (by decide) SBFReachable.init).1,
   (c6_scalable_invariants (fun _ _ _ => true) 2 3 2 2 (newScalableBloomFilter 2 3 2 2)
      (by decide) (by decide) (by decide) (by decide) SBFReachable.init).2.1,
   (c6_scalable_invariants (fun _ _ _ => true) 2 3 2 2 (newScalableBloomFilter 2 3 2 2)
      (by decide) (by decide) (by decide) (by decide) SBFReachable.init).2.2.1⟩

/-- Claim C7: counting-filter counter discipline.  A (non-panicking) add
saturates: every counter only grows, stays within `[0, 255]` if it was
there, is left exactly at 255 if it was 255, and strictly grows at probed
positions below 255; a remove floors at 0 (counters only shrink, a 0
counter stays 0, and a positive probed counter strictly decreases) yet
decrements `n` unconditionally — so `n` can go negative, as removing from
a fresh filter shows concretely. -/
theorem c7_counter_saturation :
    (∀ (cbf cbf2 : CountingBloomFilter) (e : List Nat) (j c : Nat),
      cbf.add e = some cbf2 → cbf.counts.get? j = some c →
      ∃ c2, cbf2.counts.get? j = some c2 ∧ c ≤ c2 ∧ (c ≤ 255 → c2 ≤ 255) ∧
        (c = 255 → c2 = 255) ∧ (j ∈ cbf.probes e → c < 255 → c < c2)) ∧
    (∀ (cbf cbf2 : CountingBloomFilter) (e : List Nat),
      cbf.remove e = some cbf2 → cbf2.n = cbf.n - 1 ∧
      ∀ j c, cbf.counts.get? j = some c →
        ∃ c2, cbf2.counts.get? j = some c2 ∧ c2 ≤ c ∧ (c = 0 → c2 = 0) ∧
          (j ∈ cbf.probes e → 0 < c → c2 < c)) ∧
    (newCountingBloomFilter 2 4).remove [0] =
      some { counts := [0, 0, 0, 0], k := 2, n := -1, m := 4 } := by
  refine ⟨?_, ?_, by decide⟩
  · intro cbf cbf2 e j c hadd hget
    rcases cbf_add_fields hadd with ⟨-, -, -, -, hpt, -, -⟩
    refine ⟨addVal c ((cbf.probes e).count j), by rw [hpt j, hget]; rfl,
      addVal_ge c _, fun hc => addVal_le hc,
      fun hc => by rw [hc]; exact addVal_of_saturated _,
      fun hjm hc => addVal_strict hc (List.count_pos_iff_mem.mpr hjm)⟩
  · intro cbf cbf2 e hrem
    rcases cbf_remove_fields hrem with ⟨-, -, hn, -, hpt, -, -⟩
    exact ⟨hn, fun j c hget => ⟨c - (cbf.probes e).count j,
      by rw [hpt j, hget]; rfl, Nat.sub_le _ _,
      fun hc => by rw [hc]; exact Nat.zero_sub _,
      fun hjm hc => Nat.sub_lt hc (List.count_pos_iff_mem.mpr hjm)⟩⟩

/-- Witness for C7: adding `[0]` to a single-slot counting filter holding
5 yields a counter of 6 at the probed slot, and removing `[0]` from the
same filter takes the probed counter strictly below 5 and `n` to -1. -/
theorem c7_witness :
    (∃ c2, (CountingBloomFilter.counts { counts := [6], k := 1, n := 1, m := 1 }).get? 0 =
        some c2 ∧ 5 ≤ c2 ∧ ((5 : Nat) ≤ 255 → c2 ≤ 255) ∧
        ((5 : Nat) = 255 → c2 = 255) ∧
        (0 ∈ CountingBloomFilter.probes { counts := [5], k := 1, n := 0, m := 1 } [0] →
          5 < 255 → 5 < c2)) ∧
    (CountingBloomFilter.n { counts := [4], k := 1, n := -1, m := 1 } =
        CountingBloomFilter.n { counts := [5], k := 1, n := 0, m := 1 } - 1 ∧
      ∀ j c, (CountingBloomFilter.counts
          { counts := [5], k := 1, n := 0, m := 1 }).get? j = some c →
        ∃ c2, (CountingBloomFilter.counts { counts := [4], k := 1, n := -1, m := 1 }).get? j =
          some c2 ∧ c2 ≤ c ∧ (c = 0 → c2 = 0) ∧
          (j ∈ CountingBloomFilter.probes { counts := [5], k := 1, n := 0, m := 1 } [0] →
            0 < c → c2 < c)) :=
  ⟨c7_counter_saturation.1 { counts := [5], k := 1, n := 0, m := 1 }
      { counts := [6], k := 1, n := 1, m := 1 } [0] 0 5 (by decide) (by decide),
   c7_counter_saturation.2.1 { counts := [5], k := 1, n := 0, m := 1 }
      { counts := [4], k := 1, n := -1, m := 1 } [0] (by decide)⟩

end BloomFilterGo

namespace BloomFilterGo

/-- Witness for C2: on a fresh scalable filter (empty active filter, so
the rate comparison holds) the add routes into the active filter. -/
theorem c2_witness :
    (newScalableBloomFilter 1 2 2 2).add (fun _ n _ => n == 0) [0] =
      ((newBloomFilter 1 2).add [0]).map fun bf2 =>
        { newScalableBloomFilter 1 2 2 2 with
          bfArr := (newScalableBloomFilter 1 2 2 2).bfArr.set
            ((newScalableBloomFilter 1 2 2 2).q - 1) bf2,
          n := (newScalableBloomFilter 1 2 2 2).n + 1 } :=
  (c2_scalable_add_branches (fun _ n _ => n == 0) (newScalableBloomFilter 1 2 2 2)
    [0] (newBloomFilter 1 2) (by decide)).1 (by decide)

/-- Witness for C3: the saturated one-filter chain from the C1 scenario;
the add of `[1]` is silently dropped with the state unchanged. -/
theorem c3_witness :
    ScalableBloomFilter.add (fun _ n _ => n == 0)
      { bfArr := [{ bitmap := [false, true], k := 1, n := 1, m := 2 }],
        k := 1, n := 1, m := 2, p := 1, q := 1, r := 1, s := 2 } [1] =
      some { bfArr := [{ bitmap := [false, true], k := 1, n := 1, m := 2 }],
             k := 1, n := 1, m := 2, p := 1, q := 1, r := 1, s := 2 } :=
  c3_capacity_silent_drop (fun _ n _ => n == 0)
    { bfArr := [{ bitmap := [false, true], k := 1, n := 1, m := 2 }],
      k := 1, n := 1, m := 2, p := 1, q := 1, r := 1, s := 2 } [1]
    { bitmap := [false, true], k := 1, n := 1, m := 2 }
    (by decide) (by decide) (by decide)

/-- Witness for C9: empty filters of size 5 with zero hash functions
report every element, here `[7]`, as present. -/
theorem c9_witness :
    (newBloomFilter 0 5).check [7] = some true ∧
    (newBloomFilter 0 5).add [7] =
      some { newBloomFilter 0 5 with n := (newBloomFilter 0 5).n + 1 } ∧
    (newCountingBloomFilter 0 5).check [7] = some true ∧
    (newCountingBloomFilter 0 5).add [7] =
      some { newCountingBloomFilter 0 5 with n := (newCountingBloomFilter 0 5).n + 1 } :=
  c9_zero_hash_functions (newBloomFilter 0 5) (newCountingBloomFilter 0 5) [7]
    rfl (by decide) rfl (by decide)

/-- Witness for C10: on the size-3 filter all probes of `[0]` are in
bounds and the operations return, while the size-0 filter panics. -/
theorem c10_witness :
    ((∀ ind ∈ (newBloomFilter 2 3).probes [0], ind < (newBloomFilter 2 3).m) ∧
      (∃ x, (newBloomFilter 2 3).add [0] = some x) ∧
      (∃ c, (newBloomFilter 2 3).check [0] = some c)) ∧
    ((newBloomFilter 2 0).add [0] = none ∧ (newBloomFilter 2 0).check [0] = none) :=
  ⟨(c10_probe_in_bounds (newBloomFilter 2 3) (newCountingBloomFilter 2 3) [0]).1
      (by decide) (by decide) (by decide),
   (c10_probe_in_bounds (newBloomFilter 2 0) (newCountingBloomFilter 2 3) [0]).2.2.1
      (by decide) (by decide)⟩

end BloomFilterGo
